import Mathlib

/-!
# cactus_treeStats: the relative-entropy statistic of a cactus tree

A shallow embedding of `utilities/cactus_treeStats.c`.

Modelling conventions.

* The program is embedded over an arbitrary type `α` of `double` values that
  carries the operations the program uses; the C library function `log` is a
  parameter `ln : α → α`.  Two readings of `double` are used.  In the exact
  reading `α` is a field (`ℚ`, or `ℝ` with `ln := Real.log`): rounding is not
  represented and every value is finite.  In the reading `Double α` the
  values `+inf`, `-inf` and NaN are added with the IEEE 754 rules for them;
  rounding and signed zeros are still not represented.  The two readings
  agree wherever every logarithm is taken of a positive number
  (`calculateTreeBits_finite`); statements that depend on a logarithm of zero
  or of a negative number, or on a comparison with NaN, are made in the
  second reading.  A comparison of two finite values is exact in both
  readings, where the program compares rounded values: an inequality that
  rounding could decide (that of line 182) is stated of the exact values,
  not of the outcome of the comparison in the program.
* The precondition the statistic is documented with, positive contained
  lengths of the leaves and positive segment aggregates of the internal nets,
  is `documentedPrecondition`, over the integers.  The program reads the
  aggregate from an `int32_t` accumulator; `runtimePositive` speaks of that
  accumulator, and the two agree on the trees that satisfy `aggregatesFit`.
* An `int32_t` is an `Int`; every arithmetic operation the program performs
  on `int32_t` operands is followed by `toInt32`, the reduction to the signed
  32-bit range.
* A failed `assert` aborts the program; a function that may abort returns
  `Except Failure _`.
* Statements about what happens during an evaluation of `calculateTreeBits`
  (the path bit score passed to a net, the arguments of `log`) are made on
  `traceTreeBits`, the same function returning in addition the list of its
  calls and logarithms; `traceTreeBits_result` shows that it returns what
  `calculateTreeBits` returns.
* The cactus library (`cactus.h`) is not part of this program.  The accessors
  on end instances are the fields of `CactusAPI`; the containers the iterators
  walk are lists, in iteration order.
-/

namespace Cactus

/-! ## Data model -/

/-- The three assertions of the program that can abort a run. -/
inductive Failure where
  /-- `assert(endInstance_getStrand(endInstance2))`, line 36. -/
  | strandAssertion
  /-- `assert(length >= 0)`, line 38. -/
  | lengthAssertion
  /-- `assert(totalP >= totalQ)`, line 182. -/
  | entropyAssertion
  deriving DecidableEq, Repr

/-- Reduction of an integer to the range of `int32_t`. -/
def toInt32 (x : Int) : Int :=
  (x + 2147483648) % 4294967296 - 2147483648

/-- The end-instance accessors of the cactus library that the program calls,
over a type `I` of end-instance handles. -/
structure CactusAPI (I : Type) where
  /-- `endInstance_getPositiveOrientation` -/
  endInstance_getPositiveOrientation : I → I
  /-- `endInstance_getSide` -/
  endInstance_getSide : I → Bool
  /-- `endInstance_getAdjacency` -/
  endInstance_getAdjacency : I → I
  /-- `endInstance_getStrand` -/
  endInstance_getStrand : I → Bool
  /-- `endInstance_getCoordinate`, an `int32_t` -/
  endInstance_getCoordinate : I → Int

/-- An end: what `end_isAtomEnd` returns and the end instances that
`end_getNext` yields, in order. -/
structure End (I : Type) where
  isAtomEnd : Bool
  instances : List I

/-- An atom: what `atom_getLength` and `atom_getInstanceNumber` return. -/
structure Atom where
  length : Int
  instanceNumber : Int

/-- A net: its ends, the nested nets of its adjacency components and its
atoms, each in iterator order.  An adjacency component is represented by the
net `adjacencyComponent_getNestedNet` returns for it. -/
inductive Net (I : Type) where
  | mk (ends : List (End I)) (adjacencyComponents : List (Net I))
      (atoms : List Atom) : Net I

namespace Net

variable {I : Type}

/-- The ends `net_getNextEnd` yields. -/
def ends : Net I → List (End I)
  | mk es _ _ => es

/-- The nested nets of the adjacency components
`net_getNextAdjacencyComponent` yields. -/
def adjacencyComponents : Net I → List (Net I)
  | mk _ cs _ => cs

/-- The atoms `net_getNextAtom` yields. -/
def atoms : Net I → List Atom
  | mk _ _ as => as

/-- `net_getAdjacencyComponentNumber`, an `int32_t` -/
def adjacencyComponentNumber (net : Net I) : Int :=
  net.adjacencyComponents.length

end Net

/-! ## `calculateTotalContainedSequence` (lines 24-47) -/

section Program

variable {I : Type} {α : Type} [Zero α] [Add α] [Mul α] [Div α] [IntCast α] [OfNat α 2]

/-- The value of `length` at line 37, in `int32_t` arithmetic. -/
def gapLength (api : CactusAPI I) (endInstance : I) : Int :=
  toInt32 (toInt32 (api.endInstance_getCoordinate (api.endInstance_getAdjacency endInstance)
    - api.endInstance_getCoordinate endInstance) - 1)

/-- Lines 33-40: the body of the loop over the instances of an end. -/
def instanceStep (api : CactusAPI I) (totalLength : α) (endInstance : I) :
    Except Failure α :=
  let endInstance := api.endInstance_getPositiveOrientation endInstance
  if !api.endInstance_getSide endInstance then
    let endInstance2 := api.endInstance_getAdjacency endInstance
    if api.endInstance_getStrand endInstance2 then
      let length := gapLength api endInstance
      if length ≥ 0 then .ok (totalLength + (length : α))
      else .error .lengthAssertion
    else .error .strandAssertion
  else .ok totalLength

/-- Lines 32-41: the loop over the instances of an end. -/
def instanceLoop (api : CactusAPI I) : α → List I → Except Failure α
  | totalLength, [] => .ok totalLength
  | totalLength, endInstance :: rest =>
    match instanceStep api totalLength endInstance with
    | .ok totalLength => instanceLoop api totalLength rest
    | .error e => .error e

/-- Lines 28-44: the loop over the ends of a net. -/
def endLoop (api : CactusAPI I) : α → List (End I) → Except Failure α
  | totalLength, [] => .ok totalLength
  | totalLength, e :: rest =>
    if !e.isAtomEnd then
      match instanceLoop api totalLength e.instances with
      | .ok totalLength => endLoop api totalLength rest
      | .error err => .error err
    else endLoop api totalLength rest

/-- `calculateTotalContainedSequence`, lines 24-47. -/
def calculateTotalContainedSequence (api : CactusAPI I) (net : Net I) :
    Except Failure α :=
  endLoop api 0 net.ends

/-! ## `calculateTreeBits` (lines 49-70) -/

/-- Lines 61-64: the loop over the atoms of a net, accumulating in an
`int32_t`. -/
def atomLoop : Int → List Atom → Int
  | totalSequenceSize, [] => totalSequenceSize
  | totalSequenceSize, atom :: rest =>
    atomLoop (toInt32 (totalSequenceSize + toInt32 (atom.length * atom.instanceNumber))) rest

/-- The value of `totalSequenceSize` at line 66. -/
def totalSequenceSize (net : Net I) : Int :=
  atomLoop 0 net.atoms

mutual

/-- `calculateTreeBits`, lines 49-70. -/
def calculateTreeBits (api : CactusAPI I) (ln : α → α) :
    Net I → α → Except Failure α
  | .mk ends adjacencyComponents atoms, pathBitScore =>
    if (adjacencyComponents.length : Int) > 0 then
      let followingPathBitScore :=
        ln (((adjacencyComponents.length : Int) : α)) / ln 2 + pathBitScore
      match adjacencyComponentLoop api ln followingPathBitScore 0 adjacencyComponents with
      | .error e => .error e
      | .ok totalBitScore =>
        let totalSequenceSize := atomLoop 0 atoms
        .ok (totalBitScore
          + (ln (totalSequenceSize : α) / ln 2 + pathBitScore) * (totalSequenceSize : α))
    else
      match calculateTotalContainedSequence api (.mk ends adjacencyComponents atoms) with
      | .error e => .error e
      | .ok i => .ok ((pathBitScore + ln i / ln 2) * i)

/-- Lines 55-57: the loop over the adjacency components of a net. -/
def adjacencyComponentLoop (api : CactusAPI I) (ln : α → α) (followingPathBitScore : α) :
    α → List (Net I) → Except Failure α
  | totalBitScore, [] => .ok totalBitScore
  | totalBitScore, nestedNet :: rest =>
    match calculateTreeBits api ln nestedNet followingPathBitScore with
    | .error e => .error e
    | .ok bits => adjacencyComponentLoop api ln followingPathBitScore (totalBitScore + bits) rest

end

end Program

/-! ## The relative entropy computed by `main` (lines 179-184) -/

section Main

variable {I : Type} {α : Type} [Zero α] [Add α] [Sub α] [Mul α] [Div α] [IntCast α]
  [OfNat α 2] [LE α] [DecidableRel (fun x y : α => x ≤ y)]

/-- Lines 179-184 of `main`: the values `totalP`, `totalQ` and
`totalP - totalQ` that are logged, or the failure of the assertion. -/
def main (api : CactusAPI I) (ln : α → α) (net : Net I) :
    Except Failure (α × α × α) :=
  match calculateTreeBits api ln net 0 with
  | .error e => .error e
  | .ok totalP =>
    match calculateTotalContainedSequence api net with
    | .error e => .error e
    | .ok i =>
      let totalQ := (ln i / ln 2) * i
      if totalP ≥ totalQ then .ok (totalP, totalQ, totalP - totalQ)
      else .error .entropyAssertion

end Main

/-! ## Doubles with infinities and NaN -/

/-- A `double`: a finite value of `α`, an infinity, or NaN.  Finite
arithmetic is exact. -/
inductive Double (α : Type) where
  | finite (x : α) : Double α
  | posInf : Double α
  | negInf : Double α
  | nan : Double α

namespace Double

variable {α : Type} [LinearOrderedField α]

/-- Addition: `inf + -inf` is NaN. -/
def add : Double α → Double α → Double α
  | finite x, finite y => finite (x + y)
  | nan, _ => nan
  | _, nan => nan
  | posInf, negInf => nan
  | negInf, posInf => nan
  | posInf, _ => posInf
  | _, posInf => posInf
  | negInf, _ => negInf
  | _, negInf => negInf

/-- Negation. -/
def neg : Double α → Double α
  | finite x => finite (-x)
  | posInf => negInf
  | negInf => posInf
  | nan => nan

/-- An infinity with the sign of `x`, NaN when `x` is zero. -/
def signedInf (x : α) : Double α :=
  if 0 < x then posInf else if x < 0 then negInf else nan

/-- Multiplication: `0 * inf` is NaN. -/
def mul : Double α → Double α → Double α
  | finite x, finite y => finite (x * y)
  | nan, _ => nan
  | _, nan => nan
  | finite x, posInf => signedInf x
  | finite x, negInf => signedInf (-x)
  | posInf, finite y => signedInf y
  | negInf, finite y => signedInf (-y)
  | posInf, posInf => posInf
  | negInf, negInf => posInf
  | posInf, negInf => negInf
  | negInf, posInf => negInf

/-- Division: `x / 0` is an infinity for `x ≠ 0`, and `0 / 0` and `inf / inf`
are NaN. -/
def div : Double α → Double α → Double α
  | finite x, finite y => if y = 0 then signedInf x else finite (x / y)
  | nan, _ => nan
  | _, nan => nan
  | finite _, posInf => finite 0
  | finite _, negInf => finite 0
  | posInf, finite y => if 0 ≤ y then posInf else negInf
  | negInf, finite y => if 0 ≤ y then negInf else posInf
  | posInf, posInf => nan
  | posInf, negInf => nan
  | negInf, posInf => nan
  | negInf, negInf => nan

/-- The C library `log`, from a logarithm `ln` on the positive finite
values: `log(0)` is `-inf` and the logarithm of a negative value is NaN. -/
def log (ln : α → α) : Double α → Double α
  | finite x => if 0 < x then finite (ln x) else if x = 0 then negInf else nan
  | posInf => posInf
  | negInf => nan
  | nan => nan

/-- The comparison `x <= y`: false when an operand is NaN. -/
def le : Double α → Double α → Bool
  | finite x, finite y => decide (x ≤ y)
  | nan, _ => false
  | _, nan => false
  | negInf, _ => true
  | _, posInf => true
  | finite _, negInf => false
  | posInf, finite _ => false
  | posInf, negInf => false

/-- The comparison `x < y`: false when an operand is NaN. -/
def lt : Double α → Double α → Bool
  | finite x, finite y => decide (x < y)
  | nan, _ => false
  | _, nan => false
  | posInf, _ => false
  | _, negInf => false
  | negInf, _ => true
  | finite _, posInf => true

instance : Zero (Double α) := ⟨finite 0⟩

instance : Add (Double α) := ⟨add⟩

instance : Sub (Double α) := ⟨fun x y => add x (neg y)⟩

instance : Mul (Double α) := ⟨mul⟩

instance : Div (Double α) := ⟨div⟩

instance : IntCast (Double α) := ⟨fun n => finite n⟩

instance : OfNat (Double α) 2 := ⟨finite 2⟩

instance : LE (Double α) := ⟨fun x y => le x y = true⟩

instance : LT (Double α) := ⟨fun x y => lt x y = true⟩

instance : DecidableRel (fun x y : Double α => x ≤ y) :=
  fun x y => inferInstanceAs (Decidable (le x y = true))

instance : DecidableRel (fun x y : Double α => x < y) :=
  fun x y => inferInstanceAs (Decidable (lt x y = true))

end Double

/-! ## The evaluation of `calculateTreeBits`, with its calls and logarithms -/

/-- An event of an evaluation of `calculateTreeBits`: a call of
`calculateTreeBits` on a net, with the nets of the enclosing calls from the
outermost on and the path bit score passed, or a call of `log`, with its
argument. -/
inductive Event (I α : Type) where
  | call (ancestors : List (Net I)) (net : Net I) (pathBitScore : α) : Event I α
  | log (argument : α) : Event I α

section Trace

variable {I : Type} {α : Type} [Zero α] [Add α] [Mul α] [Div α] [IntCast α] [OfNat α 2]

mutual

/-- The function `calculateTreeBits` (lines 49-70) with the events of its
evaluation in the order in which they happen, up to the failed assertion when
there is one. -/
def traceTreeBits (api : CactusAPI I) (ln : α → α) :
    List (Net I) → Net I → α → List (Event I α) × Except Failure α
  | ancestors, .mk ends adjacencyComponents atoms, pathBitScore =>
    if (adjacencyComponents.length : Int) > 0 then
      let followingPathBitScore :=
        ln (((adjacencyComponents.length : Int) : α)) / ln 2 + pathBitScore
      match traceLoop api ln (ancestors ++ [.mk ends adjacencyComponents atoms])
          followingPathBitScore 0 adjacencyComponents with
      | (events, .error e) =>
        (.call ancestors (.mk ends adjacencyComponents atoms) pathBitScore
          :: .log (((adjacencyComponents.length : Int) : α)) :: .log 2 :: events, .error e)
      | (events, .ok totalBitScore) =>
        let totalSequenceSize := atomLoop 0 atoms
        (.call ancestors (.mk ends adjacencyComponents atoms) pathBitScore
          :: .log (((adjacencyComponents.length : Int) : α)) :: .log 2
          :: (events ++ [.log (totalSequenceSize : α), .log 2]),
          .ok (totalBitScore
            + (ln (totalSequenceSize : α) / ln 2 + pathBitScore) * (totalSequenceSize : α)))
    else
      match calculateTotalContainedSequence api (.mk ends adjacencyComponents atoms) with
      | .error e =>
        ([.call ancestors (.mk ends adjacencyComponents atoms) pathBitScore], .error e)
      | .ok i =>
        ([.call ancestors (.mk ends adjacencyComponents atoms) pathBitScore, .log i, .log 2],
          .ok ((pathBitScore + ln i / ln 2) * i))

/-- The loop over the adjacency components (lines 55-57) with the events of
its evaluation. -/
def traceLoop (api : CactusAPI I) (ln : α → α) (ancestors : List (Net I))
    (followingPathBitScore : α) :
    α → List (Net I) → List (Event I α) × Except Failure α
  | totalBitScore, [] => ([], .ok totalBitScore)
  | totalBitScore, nestedNet :: rest =>
    match traceTreeBits api ln ancestors nestedNet followingPathBitScore with
    | (events, .error e) => (events, .error e)
    | (events, .ok bits) =>
      match traceLoop api ln ancestors followingPathBitScore (totalBitScore + bits) rest with
      | (events', result) => (events ++ events', result)

end

end Trace

/-! ## Quantities of the specification -/

section Spec

variable {I : Type}

/-- The instances of an end that enter the pairing: the positive-orientation
views whose `side` flag is false, in iteration order. -/
def retained (api : CactusAPI I) (instances : List I) : List I :=
  (instances.map api.endInstance_getPositiveOrientation).filter
    (fun x => !api.endInstance_getSide x)

/-- The retained instances of all ends of a list that are not atom ends. -/
def paired (api : CactusAPI I) (ends : List (End I)) : List I :=
  ((ends.filter (fun e => !e.isAtomEnd)).map (fun e => retained api e.instances)).flatten

/-- The gap of the specification, `target.coordinate - self.coordinate - 1`,
over the integers. -/
def exactGap (api : CactusAPI I) (self : I) : Int :=
  api.endInstance_getCoordinate (api.endInstance_getAdjacency self)
    - api.endInstance_getCoordinate self - 1

/-- Both checks of lines 36 and 38 hold at a normalized instance. -/
def PairingOk (api : CactusAPI I) (x : I) : Prop :=
  api.endInstance_getStrand (api.endInstance_getAdjacency x) = true ∧ 0 ≤ gapLength api x

instance (api : CactusAPI I) (x : I) : Decidable (PairingOk api x) :=
  inferInstanceAs (Decidable (_ ∧ _))

/-- The exact gap of an instance is representable as an `int32_t`. -/
def GapFits (api : CactusAPI I) (x : I) : Prop :=
  -2147483648 ≤ exactGap api x ∧ exactGap api x ≤ 2147483647

instance (api : CactusAPI I) (x : I) : Decidable (GapFits api x) :=
  inferInstanceAs (Decidable (_ ∧ _))

/-- The total segment size of the specification, the sum of
`length * instanceCount` over the atoms, over the integers. -/
def exactSequenceSize (atoms : List Atom) : Int :=
  (atoms.map (fun a => a.length * a.instanceNumber)).sum

/-- The sum of a list of results added to `total`, from left to right: the
first failure in iteration order, or `total` plus the values. -/
def sumResultsFrom {α : Type} [Add α] : α → List (Except Failure α) → Except Failure α
  | total, [] => .ok total
  | _, .error e :: _ => .error e
  | total, .ok v :: rest => sumResultsFrom (total + v) rest

/-- The sum of a list of results: the first failure in iteration order, or
the sum of the values. -/
def sumResults {α : Type} [Zero α] [Add α] (results : List (Except Failure α)) :
    Except Failure α :=
  sumResultsFrom 0 results

/-- The contained length of a net: the sum of the computed gaps of its paired
instances. -/
def containedLength (api : CactusAPI I) (net : Net I) : Int :=
  ((paired api net.ends).map (gapLength api)).sum

/-- Both checks hold at every paired instance of a net. -/
def checksPass (api : CactusAPI I) (net : Net I) : Bool :=
  (paired api net.ends).all (fun x => decide (PairingOk api x))

mutual

/-- The documented precondition of the statistic: at every leaf the checks
pass and the contained length is positive, and at every internal net the
segment aggregate, the sum of `length * instanceCount` over the atoms, is
positive. -/
def documentedPrecondition (api : CactusAPI I) : Net I → Bool
  | .mk es [] as =>
    checksPass api (.mk es [] as) && decide (0 < containedLength api (.mk es [] as))
  | .mk _ (c :: cs) as =>
    decide (0 < exactSequenceSize as)
      && (documentedPrecondition api c && documentedPreconditionList api cs)

/-- The nets of a list all satisfy `documentedPrecondition`. -/
def documentedPreconditionList (api : CactusAPI I) : List (Net I) → Bool
  | [] => true
  | c :: cs => documentedPrecondition api c && documentedPreconditionList api cs

end

mutual

/-- The segment aggregate of every internal net of a tree is representable in
an `int32_t`: it is at most `2^31 - 1`. -/
def aggregatesFit : Net I → Bool
  | .mk _ [] _ => true
  | .mk _ (c :: cs) as =>
    decide (exactSequenceSize as ≤ 2147483647) && (aggregatesFit c && aggregatesFitList cs)

/-- The nets of a list all satisfy `aggregatesFit`. -/
def aggregatesFitList : List (Net I) → Bool
  | [] => true
  | c :: cs => aggregatesFit c && aggregatesFitList cs

end

mutual

/-- What the evaluation needs for its logarithms: at every leaf the checks
pass and the contained length is positive, and at every internal net the
value of the `int32_t` accumulator `totalSequenceSize` at line 66 is positive.
It follows from `documentedPrecondition` on the trees that satisfy
`aggregatesFit`, and not on the others. -/
def runtimePositive (api : CactusAPI I) : Net I → Bool
  | .mk es [] as =>
    checksPass api (.mk es [] as) && decide (0 < containedLength api (.mk es [] as))
  | .mk es (c :: cs) as =>
    decide (0 < totalSequenceSize (.mk es (c :: cs) as))
      && (runtimePositive api c && runtimePositiveList api cs)

/-- The nets of a list all satisfy `runtimePositive`. -/
def runtimePositiveList (api : CactusAPI I) : List (Net I) → Bool
  | [] => true
  | c :: cs => runtimePositive api c && runtimePositiveList api cs

end

mutual

/-- The total contained length of the leaves nested in a net (of the net
itself, when it is a leaf). -/
def leafLength (api : CactusAPI I) : Net I → Int
  | .mk es [] as => containedLength api (.mk es [] as)
  | .mk _ (c :: cs) _ => leafLength api c + leafLengthList api cs

/-- The sum of `leafLength` over a list of nets. -/
def leafLengthList (api : CactusAPI I) : List (Net I) → Int
  | [] => 0
  | c :: cs => leafLength api c + leafLengthList api cs

end

mutual

/-- The total sequence size of the subtree of a net: the contained length of
every leaf plus the total sequence size of the atoms of every internal net,
the net itself included. -/
def subtreeSize (api : CactusAPI I) : Net I → Int
  | .mk es [] as => containedLength api (.mk es [] as)
  | .mk es (c :: cs) as =>
    totalSequenceSize (.mk es (c :: cs) as) + (subtreeSize api c + subtreeSizeList api cs)

/-- The sum of `subtreeSize` over a list of nets. -/
def subtreeSizeList (api : CactusAPI I) : List (Net I) → Int
  | [] => 0
  | c :: cs => subtreeSize api c + subtreeSizeList api cs

end

/-- Two results have the same value: one is `.ok v` exactly when the other
is.  Two failures have the same value, whichever assertions failed. -/
def SameValue {β : Type} (r r' : Except Failure β) : Prop :=
  ∀ v, r = .ok v ↔ r' = .ok v

/-- `Permuted net net'`: `net'` is `net` with the iteration order of the
adjacency components permuted, at any number of nets at any level. -/
inductive Permuted : Net I → Net I → Prop where
  | refl (net : Net I) : Permuted net net
  | siblings (es : List (End I)) (as : List Atom) (cs cs' : List (Net I)) :
      cs.Perm cs' → Permuted (.mk es cs as) (.mk es cs' as)
  | child (es : List (End I)) (as : List Atom) (before after : List (Net I)) (c c' : Net I) :
      Permuted c c' →
      Permuted (.mk es (before ++ c :: after) as) (.mk es (before ++ c' :: after) as)
  | trans (a b c : Net I) : Permuted a b → Permuted b c → Permuted a c

end Spec

/-! ## Example graphs -/

section Examples

/-- An end instance of an example graph: its flags, its coordinate, and the
index of its adjacency in the table of instances. -/
structure InstanceRecord where
  side : Bool
  strand : Bool
  coordinate : Int
  adjacency : Nat

/-- The accessors over a table of instances, all in positive orientation;
the handle of an instance is its index. -/
def tableAPI (table : List InstanceRecord) : CactusAPI Nat where
  endInstance_getPositiveOrientation := id
  endInstance_getSide := fun n => (table.getD n ⟨true, true, 0, 0⟩).side
  endInstance_getAdjacency := fun n => (table.getD n ⟨true, true, 0, 0⟩).adjacency
  endInstance_getStrand := fun n => (table.getD n ⟨true, true, 0, 0⟩).strand
  endInstance_getCoordinate := fun n => (table.getD n ⟨true, true, 0, 0⟩).coordinate

/-- A leaf net with one end holding instance `0` of a table. -/
def singleEndNet : Net Nat := .mk [⟨false, [0]⟩] [] []

/-- Instance `0` at coordinate 1 is paired with instance `1` at coordinate
`-2^31`: the exact gap is `-2^31 - 2`. -/
def wrapAPI : CactusAPI Nat :=
  tableAPI [⟨false, true, 1, 1⟩, ⟨true, true, -2147483648, 0⟩]

/-- Instance `0` at coordinate 0 is paired with instance `1` at coordinate 9:
the gap is 8. -/
def gap8API : CactusAPI Nat :=
  tableAPI [⟨false, true, 0, 1⟩, ⟨true, true, 9, 0⟩]

/-- Instance `0` and its adjacency, instance `1`, both have the strand flag
`false`. -/
def sameStrandAPI : CactusAPI Nat :=
  tableAPI [⟨false, false, 0, 1⟩, ⟨true, false, 9, 0⟩]

/-- Instances `0` and `2`, at coordinates 0 and 10, are paired with
instances `1` and `3`, at coordinates 5 and 15: two gaps of 4. -/
def twoGapsAPI : CactusAPI Nat :=
  tableAPI [⟨false, true, 0, 1⟩, ⟨true, true, 5, 0⟩, ⟨false, true, 10, 3⟩, ⟨true, true, 15, 2⟩]

/-- A net without ends of its own, with two nested leaf nets of contained
length 4 each and one atom of length 5 with 2 instances. -/
def twoLeavesNet : Net Nat :=
  .mk [] [.mk [⟨false, [0, 1]⟩] [] [], .mk [⟨false, [2, 3]⟩] [] []] [⟨5, 2⟩]

/-- An internal net with two atoms of length `2^30`, with 1 instance each. -/
def largeAtomsNet : Net Nat :=
  .mk [] [singleEndNet] [⟨1073741824, 1⟩, ⟨1073741824, 1⟩]

/-- Instance `0` at coordinate `-2^31` is paired with instance `1` at
coordinate `2^31 - 1`: the exact gap is `2^32 - 2`. -/
def wrapUpAPI : CactusAPI Nat :=
  tableAPI [⟨false, true, -2147483648, 1⟩, ⟨true, true, 2147483647, 0⟩]

/-- The instances of `twoGapsAPI` and an instance `4` at coordinate 20 that is
paired with instance `0` at coordinate 0: a gap of -21. -/
def corruptAPI : CactusAPI Nat :=
  tableAPI [⟨false, true, 0, 1⟩, ⟨true, true, 5, 0⟩, ⟨false, true, 10, 3⟩, ⟨true, true, 15, 2⟩,
    ⟨false, true, 20, 0⟩]

/-- The net `twoLeavesNet` with the corrupt instance `4` at an end of the
root. -/
def corruptRootNet : Net Nat :=
  .mk [⟨false, [4]⟩] [.mk [⟨false, [0, 1]⟩] [] [], .mk [⟨false, [2, 3]⟩] [] []] [⟨5, 2⟩]

/-- The net `twoLeavesNet` with its two adjacency components in the other
order. -/
def twoLeavesSwappedNet : Net Nat :=
  .mk [] [.mk [⟨false, [2, 3]⟩] [] [], .mk [⟨false, [0, 1]⟩] [] []] [⟨5, 2⟩]

/-- Instance `0` has an adjacency whose strand flag is not set; instance `2`
has a gap of -6. -/
def twoFailuresAPI : CactusAPI Nat :=
  tableAPI [⟨false, true, 0, 1⟩, ⟨true, false, 5, 0⟩, ⟨false, true, 10, 3⟩, ⟨true, true, 5, 2⟩]

/-- Instances `0` and `2`, at coordinates 0 and 10, are paired with
instances `1` and `3`, at coordinates 7 and 17: two gaps of 6. -/
def twoSixesAPI : CactusAPI Nat :=
  tableAPI [⟨false, true, 0, 1⟩, ⟨true, true, 7, 0⟩, ⟨false, true, 10, 3⟩, ⟨true, true, 17, 2⟩]

/-- A root whose own pairings have length 12, with two nested leaves of
contained length 6 and one atom of length 1 with 1 instance. -/
def balancedRootNet : Net Nat :=
  .mk [⟨false, [0, 1, 2, 3]⟩] [.mk [⟨false, [0, 1]⟩] [] [], .mk [⟨false, [2, 3]⟩] [] []]
    [⟨1, 1⟩]

end Examples

/-! ## The 32-bit reduction -/

theorem toInt32_of_fits (x : Int) (h1 : -2147483648 ≤ x) (h2 : x ≤ 2147483647) :
    toInt32 x = x := by
  unfold toInt32
  rw [Int.emod_eq_of_lt (by omega) (by omega)]
  omega

theorem toInt32_toInt32_sub (x : Int) : toInt32 (toInt32 x - 1) = toInt32 (x - 1) := by
  unfold toInt32
  omega

theorem toInt32_add_toInt32 (x y : Int) : toInt32 (x + toInt32 y) = toInt32 (x + y) := by
  unfold toInt32
  omega

theorem toInt32_toInt32_add (x y : Int) : toInt32 (toInt32 x + y) = toInt32 (x + y) := by
  unfold toInt32
  omega

theorem toInt32_range (x : Int) : -2147483648 ≤ toInt32 x ∧ toInt32 x ≤ 2147483647 := by
  unfold toInt32
  omega

section GapLemmas

variable {I : Type}

theorem gapLength_eq_toInt32 (api : CactusAPI I) (x : I) :
    gapLength api x = toInt32 (exactGap api x) := by
  unfold gapLength exactGap
  exact toInt32_toInt32_sub _

theorem gapLength_eq_exactGap (api : CactusAPI I) (x : I) (h : GapFits api x) :
    gapLength api x = exactGap api x := by
  rw [gapLength_eq_toInt32]
  exact toInt32_of_fits _ h.1 h.2

end GapLemmas

/-! ## The loops of `calculateTotalContainedSequence` -/

section SequenceLoops

variable {I : Type} {α : Type} [Field α]

theorem retained_cons (api : CactusAPI I) (x : I) (xs : List I) :
    retained api (x :: xs)
      = if api.endInstance_getSide (api.endInstance_getPositiveOrientation x) = true
        then retained api xs
        else api.endInstance_getPositiveOrientation x :: retained api xs := by
  unfold retained
  by_cases hs : api.endInstance_getSide (api.endInstance_getPositiveOrientation x) = true
  · simp [hs]
  · simp [hs]

theorem paired_cons (api : CactusAPI I) (e : End I) (es : List (End I)) :
    paired api (e :: es)
      = if e.isAtomEnd = true then paired api es
        else retained api e.instances ++ paired api es := by
  unfold paired
  by_cases ha : e.isAtomEnd = true
  · simp [ha]
  · simp [ha]

/-- When both checks hold at every retained instance, the loop over the
instances adds their gaps to the running total. -/
theorem instanceLoop_of_ok (api : CactusAPI I) (xs : List I) (t : α)
    (h : ∀ x ∈ retained api xs, PairingOk api x) :
    instanceLoop api t xs
      = .ok (t + (((retained api xs).map (gapLength api)).sum : Int)) := by
  induction xs generalizing t with
  | nil => simp [instanceLoop, retained]
  | cons x xs ih =>
    rw [retained_cons] at h ⊢
    by_cases hs : api.endInstance_getSide (api.endInstance_getPositiveOrientation x) = true
    · rw [if_pos hs] at h ⊢
      simp only [instanceLoop, instanceStep, hs, Bool.not_true, Bool.false_eq_true, ↓reduceIte]
      exact ih t h
    · rw [if_neg hs] at h ⊢
      simp only [Bool.not_eq_true] at hs
      simp only [List.mem_cons, forall_eq_or_imp] at h
      obtain ⟨⟨h1, h2⟩, h3⟩ := h
      simp only [instanceLoop, instanceStep, hs, Bool.not_false, ↓reduceIte, h1, ge_iff_le, h2]
      rw [ih _ h3]
      simp only [List.map_cons, List.sum_cons, Int.cast_add]
      rw [add_assoc]

/-- The loop over the instances fails as soon as a check fails at a retained
instance, with the failure of that check. -/
theorem instanceLoop_error_iff (api : CactusAPI I) (xs : List I) (t : α) :
    (∃ f, instanceLoop api t xs = .error f) ↔ ∃ x ∈ retained api xs, ¬ PairingOk api x := by
  induction xs generalizing t with
  | nil => simp [instanceLoop, retained]
  | cons x xs ih =>
    rw [retained_cons]
    by_cases hs : api.endInstance_getSide (api.endInstance_getPositiveOrientation x) = true
    · rw [if_pos hs]
      simp only [instanceLoop, instanceStep, hs, Bool.not_true, Bool.false_eq_true, ↓reduceIte]
      exact ih t
    · rw [if_neg hs]
      simp only [Bool.not_eq_true] at hs
      simp only [List.mem_cons, exists_eq_or_imp]
      by_cases h1 : api.endInstance_getStrand
          (api.endInstance_getAdjacency (api.endInstance_getPositiveOrientation x)) = true
      · by_cases h2 : 0 ≤ gapLength api (api.endInstance_getPositiveOrientation x)
        · simp only [instanceLoop, instanceStep, hs, Bool.not_false, ↓reduceIte, h1, ge_iff_le,
            h2, PairingOk, and_self, not_true_eq_false, false_or]
          exact ih _
        · simp [instanceLoop, instanceStep, hs, h1, h2, PairingOk]
      · simp [instanceLoop, instanceStep, hs, h1, PairingOk]

/-- A failure of the loop body is one of the two assertions of lines 36 and
38. -/
theorem instanceStep_error_kind (api : CactusAPI I) (x : I) (t : α) (f : Failure)
    (h : instanceStep api t x = .error f) :
    f = .strandAssertion ∨ f = .lengthAssertion := by
  simp only [instanceStep] at h
  split_ifs at h
  · exact Or.inr (Except.error.inj h).symm
  · exact Or.inl (Except.error.inj h).symm

theorem instanceLoop_error_kind (api : CactusAPI I) (xs : List I) (t : α) (f : Failure)
    (h : instanceLoop api t xs = .error f) :
    f = .strandAssertion ∨ f = .lengthAssertion := by
  induction xs generalizing t with
  | nil => simp [instanceLoop] at h
  | cons x xs ih =>
    simp only [instanceLoop] at h
    cases hstep : instanceStep api t x with
    | ok t1 =>
      rw [hstep] at h
      exact ih _ h
    | error e =>
      rw [hstep] at h
      have he : e = f := Except.error.inj h
      exact instanceStep_error_kind api x t f (he ▸ hstep)

end SequenceLoops

section EndLoop

variable {I : Type} {α : Type} [Field α]

/-- When both checks hold at every paired instance, the loop over the ends
adds their gaps to the running total. -/
theorem endLoop_of_ok (api : CactusAPI I) (es : List (End I)) (t : α)
    (h : ∀ x ∈ paired api es, PairingOk api x) :
    endLoop api t es = .ok (t + (((paired api es).map (gapLength api)).sum : Int)) := by
  induction es generalizing t with
  | nil => simp [endLoop, paired]
  | cons e es ih =>
    rw [paired_cons] at h ⊢
    by_cases ha : e.isAtomEnd = true
    · rw [if_pos ha] at h ⊢
      simp only [endLoop, ha, Bool.not_true, Bool.false_eq_true, ↓reduceIte]
      exact ih t h
    · rw [if_neg ha] at h ⊢
      simp only [Bool.not_eq_true] at ha
      simp only [List.mem_append] at h
      simp only [endLoop, ha, Bool.not_false, ↓reduceIte]
      rw [instanceLoop_of_ok api e.instances t (fun x hx => h x (Or.inl hx))]
      simp only []
      rw [ih _ (fun x hx => h x (Or.inr hx))]
      simp only [List.map_append, List.sum_append, Int.cast_add]
      rw [add_assoc]

/-- The loop over the ends fails exactly when a check fails at a paired
instance. -/
theorem endLoop_error_iff (api : CactusAPI I) (es : List (End I)) (t : α) :
    (∃ f, endLoop api t es = .error f) ↔ ∃ x ∈ paired api es, ¬ PairingOk api x := by
  induction es generalizing t with
  | nil => simp [endLoop, paired]
  | cons e es ih =>
    rw [paired_cons]
    by_cases ha : e.isAtomEnd = true
    · rw [if_pos ha]
      simp only [endLoop, ha, Bool.not_true, Bool.false_eq_true, ↓reduceIte]
      exact ih t
    · rw [if_neg ha]
      simp only [Bool.not_eq_true] at ha
      simp only [endLoop, ha, Bool.not_false, ↓reduceIte, List.mem_append, or_and_right,
        exists_or]
      rw [← instanceLoop_error_iff api e.instances t]
      cases hloop : instanceLoop api t e.instances with
      | ok t1 =>
        simp only [reduceCtorEq, exists_false, false_or]
        exact ih t1
      | error f0 =>
        simp only [Except.error.injEq, exists_eq', true_or]

theorem endLoop_error_kind (api : CactusAPI I) (es : List (End I)) (t : α) (f : Failure)
    (h : endLoop api t es = .error f) :
    f = .strandAssertion ∨ f = .lengthAssertion := by
  induction es generalizing t with
  | nil => simp [endLoop] at h
  | cons e es ih =>
    simp only [endLoop] at h
    split_ifs at h
    · cases hloop : instanceLoop api t e.instances with
      | ok t1 =>
        rw [hloop] at h
        exact ih _ h
      | error f0 =>
        rw [hloop] at h
        have he : f0 = f := Except.error.inj h
        exact instanceLoop_error_kind api e.instances t f (he ▸ hloop)
    · exact ih _ h

/-- A successful run of the loop over the ends: both checks held at every
paired instance and the total grew by the sum of the gaps. -/
theorem endLoop_ok_iff (api : CactusAPI I) (es : List (End I)) (t total : α) :
    endLoop api t es = .ok total
      ↔ (∀ x ∈ paired api es, PairingOk api x)
        ∧ total = t + (((paired api es).map (gapLength api)).sum : Int) := by
  constructor
  · intro h
    have hall : ∀ x ∈ paired api es, PairingOk api x := by
      by_contra hne
      push_neg at hne
      obtain ⟨f, hf⟩ := (endLoop_error_iff api es t).mpr hne
      rw [h] at hf
      cases hf
    refine ⟨hall, ?_⟩
    rw [endLoop_of_ok api es t hall] at h
    exact (Except.ok.inj h).symm
  · rintro ⟨hall, rfl⟩
    exact endLoop_of_ok api es t hall

end EndLoop

/-! ## `calculateTotalContainedSequence`: value and failures -/

section TotalContainedSequence

variable {I : Type} {α : Type} [Field α]

theorem mem_retained (api : CactusAPI I) (xs : List I) (x : I) :
    x ∈ retained api xs
      ↔ ∃ y ∈ xs, api.endInstance_getPositiveOrientation y = x
          ∧ api.endInstance_getSide x = false := by
  unfold retained
  simp only [List.mem_filter, List.mem_map, Bool.not_eq_eq_eq_not, Bool.not_true]
  constructor
  · rintro ⟨⟨y, hy, rfl⟩, hs⟩
    exact ⟨y, hy, rfl, hs⟩
  · rintro ⟨y, hy, rfl, hs⟩
    exact ⟨⟨y, hy, rfl⟩, hs⟩

theorem mem_paired (api : CactusAPI I) (es : List (End I)) (x : I) :
    x ∈ paired api es
      ↔ ∃ e ∈ es, e.isAtomEnd = false ∧ ∃ y ∈ e.instances,
          api.endInstance_getPositiveOrientation y = x
            ∧ api.endInstance_getSide x = false := by
  unfold paired
  simp only [List.mem_flatten, List.mem_map, List.mem_filter, Bool.not_eq_eq_eq_not,
    Bool.not_true]
  constructor
  · rintro ⟨l, ⟨e, ⟨he, ha⟩, rfl⟩, hx⟩
    exact ⟨e, he, ha, (mem_retained api e.instances x).mp hx⟩
  · rintro ⟨e, he, ha, hx⟩
    exact ⟨_, ⟨e, ⟨he, ha⟩, rfl⟩, (mem_retained api e.instances x).mpr hx⟩

theorem sum_gapLength_eq_sum_exactGap (api : CactusAPI I) (xs : List I)
    (h : ∀ x ∈ xs, GapFits api x) :
    (xs.map (gapLength api)).sum = (xs.map (exactGap api)).sum := by
  congr 1
  exact List.map_congr_left (fun x hx => gapLength_eq_exactGap api x (h x hx))

/-- C1, as stated, fails: at an instance with coordinate 1 whose adjacency has
the coordinate `-2^31` no check fails and `calculateTotalContainedSequence`
returns `2^31 - 2`, while the sum of `target.coordinate - self.coordinate - 1`
over the retained instances is `-2^31 - 2`: the 32-bit subtraction of line 37
has wrapped. -/
theorem calculateTotalContainedSequence_wraparound :
    (∀ x ∈ paired wrapAPI singleEndNet.ends, PairingOk wrapAPI x)
      ∧ (calculateTotalContainedSequence wrapAPI singleEndNet : Except Failure ℚ)
        = .ok 2147483646
      ∧ ((paired wrapAPI singleEndNet.ends).map (exactGap wrapAPI)).sum = -2147483650
      ∧ (calculateTotalContainedSequence wrapAPI singleEndNet : Except Failure ℚ)
        ≠ .ok ((((paired wrapAPI singleEndNet.ends).map (exactGap wrapAPI)).sum : Int) : ℚ) := by
  have hsum : ((paired wrapAPI singleEndNet.ends).map (exactGap wrapAPI)).sum = -2147483650 := by
    simp [paired, retained, Net.ends, singleEndNet, wrapAPI, tableAPI, exactGap]
  have hval : (calculateTotalContainedSequence wrapAPI singleEndNet : Except Failure ℚ)
      = .ok 2147483646 := by
    simp [calculateTotalContainedSequence, Net.ends, singleEndNet, endLoop, instanceLoop,
      instanceStep, wrapAPI, tableAPI, gapLength, toInt32]
  refine ⟨by decide, hval, hsum, ?_⟩
  rw [hval, hsum]
  intro h
  have h2 := Except.ok.inj h
  norm_num at h2

/-- C1, amended: on every net on which no check fails,
`calculateTotalContainedSequence` returns the sum, over the ends that are not
atom ends and over their instances whose positive-orientation view has
`side == false`, of the gap that line 37 computes in 32-bit signed arithmetic
from `target.coordinate - self.coordinate - 1`, where `target` is the
adjacency of the normalized instance; atom ends and instances with
`side == true` contribute nothing.  Whenever each of these differences is
representable in 32 bits, the result is the sum of the differences
themselves. -/
theorem calculateTotalContainedSequence_eq_sum (api : CactusAPI I) (net : Net I)
    (hchecks : ∀ x ∈ paired api net.ends, PairingOk api x) :
    (calculateTotalContainedSequence api net : Except Failure α)
        = .ok ((((paired api net.ends).map (gapLength api)).sum : Int) : α)
      ∧ ((∀ x ∈ paired api net.ends, GapFits api x) →
          (calculateTotalContainedSequence api net : Except Failure α)
            = .ok ((((paired api net.ends).map (exactGap api)).sum : Int) : α)) := by
  have h : (calculateTotalContainedSequence api net : Except Failure α)
      = .ok ((((paired api net.ends).map (gapLength api)).sum : Int) : α) := by
    unfold calculateTotalContainedSequence
    rw [endLoop_of_ok api net.ends 0 hchecks, zero_add]
  refine ⟨h, fun hfit => ?_⟩
  rw [h, sum_gapLength_eq_sum_exactGap api _ hfit]

/-- On the net with one pairing of gap 8 no check fails, the difference is
representable, and `calculateTotalContainedSequence` returns 8. -/
theorem calculateTotalContainedSequence_eq_sum_witness :
    (∀ x ∈ paired gap8API singleEndNet.ends, PairingOk gap8API x)
      ∧ ((calculateTotalContainedSequence gap8API singleEndNet : Except Failure ℚ)
          = .ok ((((paired gap8API singleEndNet.ends).map (gapLength gap8API)).sum : Int) : ℚ)
        ∧ ((∀ x ∈ paired gap8API singleEndNet.ends, GapFits gap8API x) →
          (calculateTotalContainedSequence gap8API singleEndNet : Except Failure ℚ)
            = .ok ((((paired gap8API singleEndNet.ends).map (exactGap gap8API)).sum : Int)
                : ℚ))) :=
  ⟨by decide, calculateTotalContainedSequence_eq_sum gap8API singleEndNet (by decide)⟩

/-- C5: `calculateTotalContainedSequence` aborts if and only if the net has
an end that is not an atom end with an instance whose positive-orientation
view has `side == false` and whose computed gap is negative or whose
adjacency fails the strand check; the failure is then one of the two
graph-corruption assertions. -/
theorem calculateTotalContainedSequence_fails_iff (api : CactusAPI I) (net : Net I) :
    ((∃ f, (calculateTotalContainedSequence api net : Except Failure α) = .error f)
      ↔ ∃ e ∈ net.ends, e.isAtomEnd = false ∧ ∃ y ∈ e.instances,
          api.endInstance_getSide (api.endInstance_getPositiveOrientation y) = false
          ∧ (gapLength api (api.endInstance_getPositiveOrientation y) < 0
            ∨ api.endInstance_getStrand (api.endInstance_getAdjacency
                (api.endInstance_getPositiveOrientation y)) = false))
      ∧ (calculateTotalContainedSequence api net : Except Failure α)
          ≠ .error .entropyAssertion := by
  unfold calculateTotalContainedSequence
  constructor
  · rw [endLoop_error_iff]
    constructor
    · rintro ⟨x, hx, hnot⟩
      obtain ⟨e, he, ha, y, hy, rfl, hs⟩ := (mem_paired api net.ends x).mp hx
      refine ⟨e, he, ha, y, hy, hs, ?_⟩
      unfold PairingOk at hnot
      by_cases h1 : api.endInstance_getStrand (api.endInstance_getAdjacency
          (api.endInstance_getPositiveOrientation y)) = true
      · left
        by_contra hge
        exact hnot ⟨h1, not_lt.mp hge⟩
      · right
        simpa using h1
    · rintro ⟨e, he, ha, y, hy, hs, hbad⟩
      refine ⟨_, (mem_paired api net.ends _).mpr ⟨e, he, ha, y, hy, rfl, hs⟩, ?_⟩
      rintro ⟨h1, h2⟩
      rcases hbad with hlt | hst
      · exact absurd h2 (not_le.mpr hlt)
      · rw [h1] at hst
        cases hst
  · intro h
    rcases endLoop_error_kind api net.ends 0 _ h with h1 | h1 <;> cases h1

end TotalContainedSequence

/-! ## The strand check -/

section StrandCheck

variable {I : Type} {α : Type} [Field α]

/-- C6, as stated, fails: an instance and its adjacency both carry the strand
flag `false`, so the two flags are the same, and the strand check fails. -/
theorem strand_check_same_flag_counterexample :
    (calculateTotalContainedSequence sameStrandAPI singleEndNet : Except Failure ℚ)
        = .error .strandAssertion
      ∧ sameStrandAPI.endInstance_getStrand (sameStrandAPI.endInstance_getAdjacency
            (sameStrandAPI.endInstance_getPositiveOrientation 0))
          = sameStrandAPI.endInstance_getStrand
              (sameStrandAPI.endInstance_getPositiveOrientation 0) := by
  constructor
  · simp [calculateTotalContainedSequence, Net.ends, singleEndNet, endLoop, instanceLoop,
      instanceStep, sameStrandAPI, tableAPI]
  · simp [sameStrandAPI, tableAPI]

/-- C6, amended: for an instance whose positive-orientation view has
`side == false`, the strand check of line 36 passes exactly when the strand
flag of the adjacency is set; the strand flag of the instance itself is not
read, and the check coincides with equality of the two flags when the flag of
the instance is set. -/
theorem strand_check_passes_iff (api : CactusAPI I) (totalLength : α) (y : I)
    (hside : api.endInstance_getSide (api.endInstance_getPositiveOrientation y) = false) :
    (instanceStep api totalLength y ≠ .error .strandAssertion
      ↔ api.endInstance_getStrand (api.endInstance_getAdjacency
          (api.endInstance_getPositiveOrientation y)) = true)
    ∧ (api.endInstance_getStrand (api.endInstance_getPositiveOrientation y) = true →
        (instanceStep api totalLength y ≠ .error .strandAssertion
          ↔ api.endInstance_getStrand (api.endInstance_getAdjacency
              (api.endInstance_getPositiveOrientation y))
            = api.endInstance_getStrand (api.endInstance_getPositiveOrientation y))) := by
  have key : instanceStep api totalLength y ≠ .error .strandAssertion
      ↔ api.endInstance_getStrand (api.endInstance_getAdjacency
          (api.endInstance_getPositiveOrientation y)) = true := by
    unfold instanceStep
    simp only [hside, Bool.not_false, ↓reduceIte]
    by_cases h1 : api.endInstance_getStrand (api.endInstance_getAdjacency
        (api.endInstance_getPositiveOrientation y)) = true
    · simp only [h1, ↓reduceIte, iff_true]
      split_ifs <;> simp
    · simp [h1]
  refine ⟨key, fun hown => ?_⟩
  rw [key, hown]

/-- The instance of the gap-8 example satisfies the hypothesis of
`strand_check_passes_iff`. -/
theorem strand_check_passes_iff_witness :
    gap8API.endInstance_getSide (gap8API.endInstance_getPositiveOrientation 0) = false
    ∧ ((instanceStep gap8API (0 : ℚ) 0 ≠ .error .strandAssertion
      ↔ gap8API.endInstance_getStrand (gap8API.endInstance_getAdjacency
          (gap8API.endInstance_getPositiveOrientation 0)) = true)
    ∧ (gap8API.endInstance_getStrand (gap8API.endInstance_getPositiveOrientation 0) = true →
        (instanceStep gap8API (0 : ℚ) 0 ≠ .error .strandAssertion
          ↔ gap8API.endInstance_getStrand (gap8API.endInstance_getAdjacency
              (gap8API.endInstance_getPositiveOrientation 0))
            = gap8API.endInstance_getStrand (gap8API.endInstance_getPositiveOrientation 0)))) :=
  ⟨by simp [gap8API, tableAPI],
    strand_check_passes_iff gap8API 0 0 (by simp [gap8API, tableAPI])⟩

end StrandCheck

/-! ## `calculateTreeBits`: the two branches -/

section TreeBitsGeneric

variable {I : Type} {α : Type} [Zero α] [Add α] [Mul α] [Div α] [IntCast α] [OfNat α 2]

/-- The loop over the adjacency components adds the results of the nested
nets to the running total, from left to right. -/
theorem adjacencyComponentLoop_eq (api : CactusAPI I) (ln : α → α) (q : α)
    (cs : List (Net I)) (t : α) :
    adjacencyComponentLoop api ln q t cs
      = sumResultsFrom t (cs.map (fun c => calculateTreeBits api ln c q)) := by
  induction cs generalizing t with
  | nil => simp [adjacencyComponentLoop, sumResultsFrom]
  | cons c cs ih =>
    rw [adjacencyComponentLoop, List.map_cons]
    cases hc : calculateTreeBits api ln c q with
    | error e => simp [sumResultsFrom]
    | ok v =>
      simp only [sumResultsFrom]
      exact ih _

theorem calculateTreeBits_internal_eq (api : CactusAPI I) (ln : α → α)
    (es : List (End I)) (cs : List (Net I)) (as : List Atom) (p : α) (hk : 0 < cs.length) :
    calculateTreeBits api ln (.mk es cs as) p
      = Except.map
          (fun childBits => childBits
            + (ln ((atomLoop 0 as : Int) : α) / ln 2 + p) * ((atomLoop 0 as : Int) : α))
          (sumResults (cs.map
            (fun c => calculateTreeBits api ln c (ln ((cs.length : Int) : α) / ln 2 + p)))) := by
  rw [calculateTreeBits]
  simp only [gt_iff_lt, Int.natCast_pos, hk, ↓reduceIte]
  rw [adjacencyComponentLoop_eq, sumResults]
  cases sumResultsFrom 0 (cs.map
      (fun c => calculateTreeBits api ln c (ln ((cs.length : Int) : α) / ln 2 + p))) with
  | error e => simp [Except.map]
  | ok s => simp [Except.map]

theorem calculateTreeBits_leaf_eq (api : CactusAPI I) (ln : α → α)
    (es : List (End I)) (as : List Atom) (p : α) :
    calculateTreeBits api ln (.mk es [] as) p
      = Except.map (fun i => (p + ln i / ln 2) * i)
          (calculateTotalContainedSequence api (.mk es [] as)) := by
  rw [calculateTreeBits]
  simp only [List.length_nil, Nat.cast_zero, gt_iff_lt, lt_self_iff_false, ↓reduceIte]
  cases (calculateTotalContainedSequence api (.mk es [] as) : Except Failure α) with
  | error e => simp [Except.map]
  | ok s => simp [Except.map]

end TreeBitsGeneric

section TreeBits

variable {α : Type} [Field α]

theorem sumResultsFrom_map_ok (t : α) (vs : List α) :
    sumResultsFrom t (vs.map (fun v => (Except.ok v : Except Failure α))) = .ok (t + vs.sum) := by
  induction vs generalizing t with
  | nil => simp [sumResultsFrom]
  | cons v vs ih => simp [sumResultsFrom, ih, add_assoc]

end TreeBits

/-! ## Arithmetic of `Double` -/

namespace Double

variable {α : Type} [LinearOrderedField α]

@[simp] theorem zero_eq : (0 : Double α) = finite 0 := rfl

@[simp] theorem two_eq : (2 : Double α) = finite 2 := rfl

@[simp] theorem intCast_eq (n : Int) : ((n : Int) : Double α) = finite (n : α) := rfl

@[simp] theorem finite_add_finite (x y : α) : finite x + finite y = finite (x + y) := rfl

@[simp] theorem finite_sub_finite (x y : α) : finite x - finite y = finite (x - y) := by
  show add (finite x) (neg (finite y)) = finite (x - y)
  simp [add, neg, sub_eq_add_neg]

@[simp] theorem finite_mul_finite (x y : α) : finite x * finite y = finite (x * y) := rfl

theorem finite_div_finite (x y : α) (hy : y ≠ 0) : finite x / finite y = finite (x / y) := by
  show div (finite x) (finite y) = finite (x / y)
  simp [div, hy]

theorem log_finite_of_pos (ln : α → α) (x : α) (hx : 0 < x) :
    log ln (finite x) = finite (ln x) := by
  simp [log, hx]

@[simp] theorem log_finite_zero (ln : α → α) : log ln (finite 0) = negInf := by
  simp [log]

theorem negInf_div_finite_of_pos (y : α) (hy : 0 < y) : (negInf : Double α) / finite y = negInf := by
  show div negInf (finite y) = negInf
  simp [div, hy.le]

@[simp] theorem negInf_mul_zero : (negInf : Double α) * finite 0 = nan := by
  show mul negInf (finite 0) = nan
  simp [mul, signedInf]

@[simp] theorem nan_add (x : Double α) : nan + x = nan := by
  show add nan x = nan
  cases x <;> rfl

@[simp] theorem add_nan (x : Double α) : x + nan = nan := by
  show add x nan = nan
  cases x <;> rfl

@[simp] theorem nan_mul (x : Double α) : nan * x = nan := by
  show mul nan x = nan
  cases x <;> rfl

@[simp] theorem nan_div (x : Double α) : nan / x = nan := by
  show div nan x = nan
  cases x <;> rfl

theorem log_finite_of_neg (ln : α → α) (x : α) (hx : x < 0) :
    log ln (finite x) = nan := by
  simp [log, not_lt.mpr hx.le, hx.ne]

@[simp] theorem finite_le_finite (x y : α) : (finite x ≤ finite y) ↔ x ≤ y := by
  show le (finite x) (finite y) = true ↔ x ≤ y
  simp [le]

@[simp] theorem not_nan_le (x : Double α) : ¬ (nan ≤ x) := by
  show ¬ (le nan x = true)
  cases x <;> simp [le]

@[simp] theorem not_le_nan (x : Double α) : ¬ (x ≤ nan) := by
  show ¬ (le x nan = true)
  cases x <;> simp [le]

@[simp] theorem not_lt_nan (x : Double α) : ¬ (x < nan) := by
  show ¬ (lt x nan = true)
  cases x <;> simp [lt]

/-- A comparison `y <= x` of doubles is false exactly when `x < y` or an
operand is NaN. -/
theorem not_le_iff (x y : Double α) : ¬ (y ≤ x) ↔ (x < y ∨ x = nan ∨ y = nan) := by
  show ¬ (le y x = true) ↔ (lt x y = true ∨ x = nan ∨ y = nan)
  cases x <;> cases y <;> simp [le, lt]

end Double


/-! ## The relative entropy of `main` -/

section MainGeneric

variable {I : Type} {α : Type} [Zero α] [Add α] [Sub α] [Mul α] [Div α] [IntCast α]
  [OfNat α 2] [LE α] [DecidableRel (fun x y : α => x ≤ y)]

/-- The failures of `main`: a failure of `calculateTreeBits`, else a failure
of `calculateTotalContainedSequence`, else the assertion of line 182. -/
theorem main_error_iff (api : CactusAPI I) (ln : α → α) (net : Net I) (f : Failure) :
    main api ln net = .error f
      ↔ calculateTreeBits api ln net 0 = .error f
        ∨ (∃ totalP, calculateTreeBits api ln net 0 = .ok totalP
            ∧ (calculateTotalContainedSequence api net : Except Failure α) = .error f)
        ∨ (f = .entropyAssertion
            ∧ ∃ totalP i, calculateTreeBits api ln net 0 = .ok totalP
              ∧ calculateTotalContainedSequence api net = .ok i
              ∧ ¬ (totalP ≥ (ln i / ln 2) * i)) := by
  unfold main
  cases hP : calculateTreeBits api ln net 0 with
  | error e => simp
  | ok totalP =>
    cases hi : (calculateTotalContainedSequence api net : Except Failure α) with
    | error e => simp
    | ok i =>
      by_cases hge : totalP ≥ (ln i / ln 2) * i
      · simp [hge]
      · simp only [hge, ↓reduceIte, Except.error.injEq, reduceCtorEq, Except.ok.injEq,
          false_and, exists_false, false_or]
        constructor
        · intro h
          exact Or.inr ⟨h.symm, totalP, i, rfl, rfl, hge⟩
        · rintro (⟨_, _, hfalse⟩ | ⟨hf, _⟩)
          · exact hfalse.elim
          · exact hf.symm

/-- The successful runs of `main`. -/
theorem main_ok_iff (api : CactusAPI I) (ln : α → α) (net : Net I) (r : α × α × α) :
    main api ln net = .ok r
      ↔ ∃ totalP i, calculateTreeBits api ln net 0 = .ok totalP
          ∧ calculateTotalContainedSequence api net = .ok i
          ∧ totalP ≥ (ln i / ln 2) * i
          ∧ r = (totalP, (ln i / ln 2) * i, totalP - (ln i / ln 2) * i) := by
  unfold main
  cases hP : calculateTreeBits api ln net 0 with
  | error e => simp
  | ok totalP =>
    cases hi : (calculateTotalContainedSequence api net : Except Failure α) with
    | error e => simp
    | ok i =>
      by_cases hge : totalP ≥ (ln i / ln 2) * i
      · simp only [hge, ↓reduceIte, Except.ok.injEq, exists_and_left, exists_eq_left', true_and]
        exact eq_comm
      · simp [hge]

end MainGeneric

section MainDouble

variable {I : Type} {α : Type} [LinearOrderedField α]

/-- C10, as stated, fails: on a root with two nested leaves and no pairing of
its own, `i` is 0, `totalQ` is `log(0) / log(2) * 0`, which is NaN, and the
assertion `totalP >= totalQ` fails although `totalP < totalQ` is false. -/
theorem main_nan_counterexample :
    main twoGapsAPI (Double.log Real.log) twoLeavesNet = .error .entropyAssertion
      ∧ ∃ totalP i,
          calculateTreeBits twoGapsAPI (Double.log Real.log) twoLeavesNet 0 = .ok totalP
          ∧ calculateTotalContainedSequence twoGapsAPI twoLeavesNet = .ok i
          ∧ ¬ (totalP < (Double.log Real.log i / Double.log Real.log 2) * i) := by
  have h2 : (0:ℝ) < Real.log 2 := Real.log_pos (by norm_num)
  have hP : calculateTreeBits twoGapsAPI (Double.log Real.log) twoLeavesNet 0
      = .ok (.finite ((Real.log 2 / Real.log 2 + 0 + Real.log 4 / Real.log 2) * 4
          + (Real.log 2 / Real.log 2 + 0 + Real.log 4 / Real.log 2) * 4
          + (Real.log 10 / Real.log 2 + 0) * 10)) := by
    simp [calculateTreeBits, adjacencyComponentLoop, atomLoop, calculateTotalContainedSequence,
      Net.ends, twoLeavesNet, endLoop, instanceLoop, instanceStep, twoGapsAPI, tableAPI,
      gapLength, toInt32, Double.log_finite_of_pos, Double.finite_div_finite, h2.ne']
  have hi : (calculateTotalContainedSequence twoGapsAPI twoLeavesNet
      : Except Failure (Double ℝ)) = .ok (.finite 0) := by
    simp [calculateTotalContainedSequence, Net.ends, twoLeavesNet, endLoop]
  have hQ : (Double.log Real.log (.finite 0) / Double.log Real.log 2) * (.finite 0 : Double ℝ)
      = .nan := by
    simp [Double.log_finite_of_pos, Double.negInf_div_finite_of_pos, h2]
  refine ⟨?_, _, _, hP, hi, ?_⟩
  · rw [main_error_iff]
    right; right
    refine ⟨rfl, _, _, hP, hi, ?_⟩
    rw [hQ]
    exact Double.not_nan_le (α := ℝ) _
  · rw [hQ]
    exact Double.not_lt_nan (α := ℝ) _

/-- C10, amended: `main` computes `totalP = calculateTreeBits(net, 0.0)`,
`i = calculateTotalContainedSequence(net)` on the root itself, whether it is
internal or a leaf, and `totalQ = log(i) / log(2) * i`.  It fails exactly
when a nested computation fails or the comparison `totalP >= totalQ` is
false, which is the case when `totalP < totalQ` and also when `totalP` or
`totalQ` is NaN; otherwise it yields `(totalP, totalQ, totalP - totalQ)`
unchanged. -/
theorem main_result (api : CactusAPI I) (ln : Double α → Double α) (net : Net I) :
    (∀ f, main api ln net = .error f
      ↔ calculateTreeBits api ln net 0 = .error f
        ∨ (∃ totalP, calculateTreeBits api ln net 0 = .ok totalP
            ∧ (calculateTotalContainedSequence api net : Except Failure (Double α)) = .error f)
        ∨ (f = .entropyAssertion
            ∧ ∃ totalP i, calculateTreeBits api ln net 0 = .ok totalP
              ∧ calculateTotalContainedSequence api net = .ok i
              ∧ (totalP < (ln i / ln 2) * i ∨ totalP = .nan ∨ (ln i / ln 2) * i = .nan)))
    ∧ (∀ r, main api ln net = .ok r
      ↔ ∃ totalP i, calculateTreeBits api ln net 0 = .ok totalP
          ∧ calculateTotalContainedSequence api net = .ok i
          ∧ totalP ≥ (ln i / ln 2) * i
          ∧ r = (totalP, (ln i / ln 2) * i, totalP - (ln i / ln 2) * i)) := by
  refine ⟨fun f => ?_, fun r => main_ok_iff api ln net r⟩
  rw [main_error_iff]
  simp only [ge_iff_le, Double.not_le_iff]

end MainDouble

/-! ## `calculateTreeBits`: internal nets and leaves -/

section TreeBitsClaims

variable {I : Type} {α : Type} [Field α]

end TreeBitsClaims

section LeafClaim

variable {I : Type} {α : Type} [Zero α] [Add α] [Mul α] [Div α] [IntCast α] [OfNat α 2]

/-- C3: on a leaf net (one without adjacency components) and for every path
bit score `p`, `calculateTreeBits` returns `(p + log2(i)) * i` with
`i = calculateTotalContainedSequence(net)`, and fails when that fails; the
atoms of the leaf do not enter the result.  This holds in every reading of
`double`. -/
theorem calculateTreeBits_leaf (api : CactusAPI I) (ln : α → α) (net : Net I) (p : α)
    (hk : net.adjacencyComponentNumber = 0) :
    calculateTreeBits api ln net p
        = Except.map (fun i => (p + ln i / ln 2) * i) (calculateTotalContainedSequence api net)
      ∧ ∀ atoms : List Atom,
          calculateTreeBits api ln (.mk net.ends [] atoms) p = calculateTreeBits api ln net p := by
  obtain ⟨es, cs, as⟩ := net
  simp only [Net.adjacencyComponentNumber, Net.adjacencyComponents, Nat.cast_eq_zero,
    List.length_eq_zero] at hk
  subst hk
  refine ⟨calculateTreeBits_leaf_eq api ln es as p, fun atoms => ?_⟩
  rw [calculateTreeBits_leaf_eq, calculateTreeBits_leaf_eq]
  rfl

/-- The net with one pairing of gap 8 is a leaf. -/
theorem calculateTreeBits_leaf_witness :
    singleEndNet.adjacencyComponentNumber = 0
    ∧ (calculateTreeBits gap8API Real.log singleEndNet 0
        = Except.map (fun i => (0 + Real.log i / Real.log 2) * i)
            (calculateTotalContainedSequence gap8API singleEndNet)
      ∧ ∀ atoms : List Atom,
          calculateTreeBits gap8API Real.log (.mk singleEndNet.ends [] atoms) 0
            = calculateTreeBits gap8API Real.log singleEndNet 0) :=
  ⟨by decide, calculateTreeBits_leaf gap8API Real.log singleEndNet 0 (by decide)⟩

end LeafClaim

/-! ## The total sequence size of the atoms -/

section SequenceSize

variable {I : Type}

theorem atomLoop_toInt32 (t : Int) (atoms : List Atom) :
    atomLoop (toInt32 t) atoms = toInt32 (t + exactSequenceSize atoms) := by
  induction atoms generalizing t with
  | nil => simp [atomLoop, exactSequenceSize]
  | cons a atoms ih =>
    rw [atomLoop, toInt32_add_toInt32, toInt32_toInt32_add, ih]
    simp only [exactSequenceSize, List.map_cons, List.sum_cons]
    rw [add_assoc]

/-- The total sequence size `calculateTreeBits` uses for an internal net is
the sum of `length * instanceCount` over the atoms of the net reduced to the
signed 32-bit range; it is the exact integer sum whenever that sum is
representable in 32 bits. -/
theorem totalSequenceSize_eq (net : Net I) :
    totalSequenceSize net = toInt32 (exactSequenceSize net.atoms)
      ∧ (-2147483648 ≤ exactSequenceSize net.atoms
          ∧ exactSequenceSize net.atoms ≤ 2147483647 →
        totalSequenceSize net = exactSequenceSize net.atoms) := by
  have h : totalSequenceSize net = toInt32 (exactSequenceSize net.atoms) := by
    have h0 := atomLoop_toInt32 0 net.atoms
    rw [zero_add] at h0
    exact h0
  exact ⟨h, fun hfit => by rw [h, toInt32_of_fits _ hfit.1 hfit.2]⟩

/-- C9 fails on the program: for two atoms of length `2^30` with one instance
each, all lengths and instance counts are non-negative and every product is
representable, the exact sum of `length * instanceCount` is `2^31`, and the
`int32_t` accumulator of lines 61-63 holds `-2^31`; the logarithm of line 66
is then taken of a negative number and `calculateTreeBits` returns NaN. -/
theorem totalSequenceSize_overflow :
    (∀ a ∈ largeAtomsNet.atoms, 0 ≤ a.length ∧ 0 ≤ a.instanceNumber)
      ∧ exactSequenceSize largeAtomsNet.atoms = 2147483648
      ∧ totalSequenceSize largeAtomsNet = -2147483648
      ∧ calculateTreeBits gap8API (Double.log Real.log) largeAtomsNet 0
          = .ok (Double.nan : Double ℝ) := by
  refine ⟨?_, by decide, by decide, ?_⟩
  · simp [largeAtomsNet, Net.atoms]
  · have h2 : (0 : ℝ) < Real.log 2 := Real.log_pos (by norm_num)
    have hneg : Double.log Real.log (Double.finite (-2147483648 : ℝ)) = Double.nan :=
      Double.log_finite_of_neg Real.log _ (by norm_num)
    simp [calculateTreeBits, adjacencyComponentLoop, atomLoop, calculateTotalContainedSequence,
      Net.ends, largeAtomsNet, singleEndNet, endLoop, instanceLoop, instanceStep, gap8API,
      tableAPI, gapLength, toInt32, Double.log_finite_of_pos, Double.finite_div_finite, h2.ne',
      hneg]

end SequenceSize

/-! ## Induction over nets -/

section NetInduction

variable {I : Type}

mutual

/-- Induction over the nesting of nets. -/
theorem Net.induction {P : Net I → Prop}
    (h : ∀ es cs as, (∀ c ∈ cs, P c) → P (.mk es cs as)) : ∀ net, P net
  | .mk es cs as => h es cs as (Net.induction_list h cs)

theorem Net.induction_list {P : Net I → Prop}
    (h : ∀ es cs as, (∀ c ∈ cs, P c) → P (.mk es cs as)) :
    ∀ cs : List (Net I), ∀ c ∈ cs, P c
  | [], _, hc => by cases hc
  | c :: cs, c', hc => by
    rcases List.mem_cons.mp hc with rfl | hmem
    · exact Net.induction h _
    · exact Net.induction_list h cs c' hmem

end

theorem runtimePositiveList_iff (api : CactusAPI I) (cs : List (Net I)) :
    runtimePositiveList api cs = true ↔ ∀ c ∈ cs, runtimePositive api c = true := by
  induction cs with
  | nil => simp [runtimePositiveList]
  | cons c cs ih => simp [runtimePositiveList, ih]

theorem runtimePositive_leaf_iff (api : CactusAPI I) (es : List (End I)) (as : List Atom) :
    runtimePositive api (.mk es [] as) = true
      ↔ (∀ x ∈ paired api es, PairingOk api x) ∧ 0 < containedLength api (.mk es [] as) := by
  simp [runtimePositive, checksPass, Net.ends]

theorem runtimePositive_internal_iff (api : CactusAPI I) (es : List (End I)) (cs : List (Net I))
    (as : List Atom) (hcs : cs ≠ []) :
    runtimePositive api (.mk es cs as) = true
      ↔ 0 < totalSequenceSize (.mk es cs as) ∧ ∀ c ∈ cs, runtimePositive api c = true := by
  cases cs with
  | nil => exact absurd rfl hcs
  | cons c cs =>
    rw [runtimePositive, ← runtimePositiveList_iff]
    simp [runtimePositiveList]

end NetInduction

/-! ## The documented precondition and the accumulator of line 66 -/

section Precondition

variable {I : Type}

theorem documentedPreconditionList_iff (api : CactusAPI I) (cs : List (Net I)) :
    documentedPreconditionList api cs = true
      ↔ ∀ c ∈ cs, documentedPrecondition api c = true := by
  induction cs with
  | nil => simp [documentedPreconditionList]
  | cons c cs ih => simp [documentedPreconditionList, ih]

theorem aggregatesFitList_iff (cs : List (Net I)) :
    aggregatesFitList cs = true ↔ ∀ c ∈ cs, aggregatesFit c = true := by
  induction cs with
  | nil => simp [aggregatesFitList]
  | cons c cs ih => simp [aggregatesFitList, ih]

theorem documentedPrecondition_internal_iff (api : CactusAPI I) (es : List (End I))
    (cs : List (Net I)) (as : List Atom) (hcs : cs ≠ []) :
    documentedPrecondition api (.mk es cs as) = true
      ↔ 0 < exactSequenceSize as ∧ ∀ c ∈ cs, documentedPrecondition api c = true := by
  cases cs with
  | nil => exact absurd rfl hcs
  | cons c cs =>
    rw [documentedPrecondition, ← documentedPreconditionList_iff]
    simp [documentedPreconditionList]

theorem aggregatesFit_internal_iff (es : List (End I)) (cs : List (Net I)) (as : List Atom)
    (hcs : cs ≠ []) :
    aggregatesFit (.mk es cs as) = true
      ↔ exactSequenceSize as ≤ 2147483647 ∧ ∀ c ∈ cs, aggregatesFit c = true := by
  cases cs with
  | nil => exact absurd rfl hcs
  | cons c cs =>
    rw [aggregatesFit, ← aggregatesFitList_iff]
    simp [aggregatesFitList]

/-- On a tree whose segment aggregates are representable in 32 bits, the
documented precondition makes the accumulator of line 66 positive at every
internal net. -/
theorem runtimePositive_of_documentedPrecondition (api : CactusAPI I) (net : Net I) :
    documentedPrecondition api net = true → aggregatesFit net = true →
      runtimePositive api net = true := by
  induction net using Net.induction with
  | h es cs as ih =>
    intro hpre hfit
    cases cs with
    | nil =>
      rw [runtimePositive]
      rw [documentedPrecondition] at hpre
      exact hpre
    | cons c cs =>
      have hne : c :: cs ≠ [] := List.cons_ne_nil c cs
      obtain ⟨hpos, hpre'⟩ := (documentedPrecondition_internal_iff api es _ as hne).mp hpre
      obtain ⟨hle, hfit'⟩ := (aggregatesFit_internal_iff es _ as hne).mp hfit
      rw [runtimePositive_internal_iff api es _ as hne]
      refine ⟨?_, fun c' hc' => ih c' hc' (hpre' c' hc') (hfit' c' hc')⟩
      have heq := (totalSequenceSize_eq (Net.mk es (c :: cs) as)).2
        ⟨by simp only [Net.atoms]; omega, by simp only [Net.atoms]; exact hle⟩
      rw [heq]
      exact hpos

end Precondition

/-! ## The two readings of `double` agree on finite values -/

section Finite

variable {I : Type} {α : Type} [LinearOrderedField α]

open Double

theorem instanceStep_finite (api : CactusAPI I) (t : α) (x : I) :
    instanceStep api (finite t) x = Except.map finite (instanceStep api t x) := by
  unfold instanceStep
  simp only []
  split_ifs <;> rfl

theorem instanceLoop_finite (api : CactusAPI I) (t : α) (xs : List I) :
    instanceLoop api (finite t) xs = Except.map finite (instanceLoop api t xs) := by
  induction xs generalizing t with
  | nil => rfl
  | cons x xs ih =>
    rw [instanceLoop, instanceLoop, instanceStep_finite]
    cases instanceStep api t x with
    | error e => rfl
    | ok t1 => exact ih t1

theorem endLoop_finite (api : CactusAPI I) (t : α) (es : List (End I)) :
    endLoop api (finite t) es = Except.map finite (endLoop api t es) := by
  induction es generalizing t with
  | nil => rfl
  | cons e es ih =>
    rw [endLoop, endLoop]
    split_ifs
    · rw [instanceLoop_finite]
      cases instanceLoop api t e.instances with
      | error e => rfl
      | ok t1 => exact ih t1
    · exact ih t

/-- In the reading with infinities and NaN, `calculateTotalContainedSequence`
returns the finite value of the exact reading. -/
theorem calculateTotalContainedSequence_finite (api : CactusAPI I) (net : Net I) :
    (calculateTotalContainedSequence api net : Except Failure (Double α))
      = Except.map finite (calculateTotalContainedSequence api net) :=
  endLoop_finite api 0 net.ends

theorem sumResultsFrom_finite (t : α) (rs : List (Except Failure α)) :
    sumResultsFrom (finite t) (rs.map (Except.map finite))
      = Except.map finite (sumResultsFrom t rs) := by
  induction rs generalizing t with
  | nil => rfl
  | cons r rs ih =>
    cases r with
    | error e => rfl
    | ok v => exact ih (t + v)

theorem calculateTotalContainedSequence_of_checks (api : CactusAPI I) (net : Net I)
    (h : ∀ x ∈ paired api net.ends, PairingOk api x) :
    (calculateTotalContainedSequence api net : Except Failure α)
      = .ok ((containedLength api net : Int) : α) := by
  unfold calculateTotalContainedSequence containedLength
  rw [endLoop_of_ok api net.ends 0 h, zero_add]

/-- On a net that satisfies `runtimePositive`, for a finite path bit score and
a logarithm with `ln 2 ≠ 0`, `calculateTreeBits` in the reading with
infinities and NaN returns the finite value of the exact reading. -/
theorem calculateTreeBits_finite (api : CactusAPI I) (ln : α → α) (hln : ln 2 ≠ 0)
    (net : Net I) :
    runtimePositive api net = true → ∀ p : α,
      calculateTreeBits api (Double.log ln) net (finite p)
        = Except.map finite (calculateTreeBits api ln net p) := by
  induction net using Net.induction with
  | h es cs as ih =>
    intro hwf p
    have hlog2 : Double.log ln (2 : Double α) = finite (ln 2) :=
      log_finite_of_pos ln 2 (by norm_num)
    cases cs with
    | nil =>
      obtain ⟨hchecks, hpos⟩ := (runtimePositive_leaf_iff api es as).mp hwf
      have hposα : (0 : α) < ((containedLength api (.mk es [] as) : Int) : α) := by
        exact_mod_cast hpos
      rw [calculateTreeBits_leaf_eq, calculateTreeBits_leaf_eq,
        calculateTotalContainedSequence_finite,
        calculateTotalContainedSequence_of_checks api (.mk es [] as) hchecks]
      simp only [Except.map, hlog2]
      rw [log_finite_of_pos ln _ hposα, finite_div_finite _ _ hln]
      rfl
    | cons c cs =>
      have hne : c :: cs ≠ [] := List.cons_ne_nil c cs
      obtain ⟨hT, hchildren⟩ := (runtimePositive_internal_iff api es (c :: cs) as hne).mp hwf
      have hk : 0 < (c :: cs).length := List.length_pos.mpr hne
      have hkα : (0 : α) < (((c :: cs).length : Int) : α) := by exact_mod_cast hk
      have hTα : (0 : α) < ((atomLoop 0 as : Int) : α) := by exact_mod_cast hT
      rw [calculateTreeBits_internal_eq _ _ _ _ _ _ hk,
        calculateTreeBits_internal_eq _ _ _ _ _ _ hk]
      simp only [intCast_eq, hlog2]
      rw [log_finite_of_pos ln _ hkα, log_finite_of_pos ln _ hTα,
        finite_div_finite _ _ hln, finite_div_finite _ _ hln]
      simp only [finite_add_finite, finite_mul_finite]
      have hmap : (c :: cs).map (fun c' => calculateTreeBits api (Double.log ln) c'
            (finite (ln (((c :: cs).length : Int) : α) / ln 2 + p)))
          = ((c :: cs).map (fun c' => calculateTreeBits api ln c'
              (ln (((c :: cs).length : Int) : α) / ln 2 + p))).map (Except.map finite) := by
        rw [List.map_map]
        exact List.map_congr_left (fun c' hc' => ih c' hc' (hchildren c' hc') _)
      rw [hmap, sumResults, sumResults]
      have h0 : (0 : Double α) = finite 0 := rfl
      rw [h0, sumResultsFrom_finite]
      cases sumResultsFrom 0 ((c :: cs).map (fun c' => calculateTreeBits api ln c'
          (ln (((c :: cs).length : Int) : α) / ln 2 + p))) with
      | error e => rfl
      | ok v => rfl

end Finite

/-! ## Leaf roots and roots of leaves -/

section RealValued

variable {I : Type}

open Double

theorem log_two_pos : (0 : ℝ) < Real.log 2 := Real.log_pos (by norm_num)

theorem log_two_eq : Double.log Real.log (2 : Double ℝ) = finite (Real.log 2) :=
  log_finite_of_pos Real.log 2 (by norm_num)

/-- The term `(p + log(i) / log(2)) * i` of a leaf, for finite `p` and
positive finite `i`. -/
theorem leaf_term_finite (p i : ℝ) (hi : 0 < i) :
    (finite p + Double.log Real.log (finite i) / Double.log Real.log 2) * finite i
      = finite ((p + Real.logb 2 i) * i) := by
  rw [log_two_eq, log_finite_of_pos _ _ hi, finite_div_finite _ _ log_two_pos.ne',
    Real.log_div_log]
  rfl

/-- C7: for a root without adjacency components whose pairings sum to a
contained length `L > 0`, `main` computes `totalP = totalQ = log2(L) * L`, the
assertion `totalP >= totalQ` passes and the relative entropy is 0; all three
values are finite. -/
theorem main_leaf_root (api : CactusAPI I) (net : Net I) (L : ℝ)
    (hleaf : net.adjacencyComponentNumber = 0)
    (hL : calculateTotalContainedSequence api net = .ok (finite L)) (hpos : 0 < L) :
    calculateTreeBits api (Double.log Real.log) net 0 = .ok (finite (Real.logb 2 L * L))
      ∧ main api (Double.log Real.log) net
          = .ok (finite (Real.logb 2 L * L), finite (Real.logb 2 L * L), finite 0) := by
  obtain ⟨es, cs, as⟩ := net
  simp only [Net.adjacencyComponentNumber, Net.adjacencyComponents, Nat.cast_eq_zero,
    List.length_eq_zero] at hleaf
  subst hleaf
  have hterm := leaf_term_finite 0 L hpos
  rw [zero_add] at hterm
  have hP : calculateTreeBits api (Double.log Real.log) (.mk es [] as) 0
      = .ok (finite (Real.logb 2 L * L)) := by
    rw [calculateTreeBits_leaf_eq, hL]
    simp only [Except.map, zero_eq]
    rw [hterm]
  have hQ : Double.log Real.log (finite L) / Double.log Real.log 2 * finite L
      = finite (Real.logb 2 L * L) := by
    rw [log_two_eq, log_finite_of_pos _ _ hpos, finite_div_finite _ _ log_two_pos.ne',
      Real.log_div_log]
    rfl
  refine ⟨hP, ?_⟩
  rw [main_ok_iff]
  refine ⟨_, _, hP, hL, ?_, ?_⟩
  · rw [hQ]
    exact (finite_le_finite _ _).mpr le_rfl
  · rw [hQ, finite_sub_finite, sub_self]

/-- One pairing of gap 8: `totalP = totalQ = 24` and the relative entropy is
0. -/
theorem main_leaf_root_witness :
    singleEndNet.adjacencyComponentNumber = 0
    ∧ calculateTotalContainedSequence gap8API singleEndNet = .ok (finite (8 : ℝ))
    ∧ (0 : ℝ) < 8
    ∧ calculateTreeBits gap8API (Double.log Real.log) singleEndNet 0 = .ok (finite (24 : ℝ))
    ∧ main gap8API (Double.log Real.log) singleEndNet
        = .ok (finite (24 : ℝ), finite (24 : ℝ), finite (0 : ℝ)) := by
  have h8 : calculateTotalContainedSequence gap8API singleEndNet = .ok (finite (8 : ℝ)) := by
    simp [calculateTotalContainedSequence, Net.ends, singleEndNet, endLoop, instanceLoop,
      instanceStep, gap8API, tableAPI, gapLength, toInt32]
  have hlog : Real.logb 2 8 * 8 = (24 : ℝ) := by
    have h : Real.logb 2 8 = 3 := by
      rw [show (8 : ℝ) = 2 ^ (3 : ℕ) by norm_num, Real.logb_pow,
        Real.logb_self_eq_one (by norm_num)]
      norm_num
    rw [h]
    norm_num
  have h := main_leaf_root gap8API singleEndNet 8 (by decide) h8 (by norm_num)
  rw [hlog] at h
  exact ⟨by decide, h8, by norm_num, h.1, h.2⟩

/-- For a root with `k >= 1` adjacency components whose nested nets are all
leaves, of contained lengths `l_1 .. l_k > 0`, and on which the accumulator
`totalSequenceSize` of line 66 holds a value `T > 0`,
`calculateTreeBits(root, 0.0)` is the finite value
`sum_j (log2(k) + log2(l_j)) * l_j + log2(T) * T`.  The accumulator holds the
segment aggregate when that is representable in 32 bits
(`totalSequenceSize_eq`). -/
theorem calculateTreeBits_root_of_leaves (api : CactusAPI I) (net : Net I) (ls : List ℝ)
    (hk : 0 < net.adjacencyComponentNumber)
    (hleaves : List.Forall₂
      (fun c l => c.adjacencyComponentNumber = 0
        ∧ calculateTotalContainedSequence api c = .ok (finite l) ∧ 0 < l)
      net.adjacencyComponents ls)
    (hT : 0 < totalSequenceSize net) :
    calculateTreeBits api (Double.log Real.log) net 0
      = .ok (finite
          ((ls.map (fun l =>
              (Real.logb 2 (net.adjacencyComponentNumber : ℝ) + Real.logb 2 l) * l)).sum
            + Real.logb 2 (totalSequenceSize net : ℝ) * (totalSequenceSize net : ℝ))) := by
  obtain ⟨es, cs, as⟩ := net
  simp only [Net.adjacencyComponentNumber, Net.adjacencyComponents, totalSequenceSize,
    Net.atoms] at hk hleaves hT ⊢
  have hlen : 0 < cs.length := by exact_mod_cast hk
  have hkR : (0 : ℝ) < ((cs.length : Int) : ℝ) := by exact_mod_cast hk
  have hTR : (0 : ℝ) < ((atomLoop 0 as : Int) : ℝ) := by exact_mod_cast hT
  rw [calculateTreeBits_internal_eq _ _ _ _ _ _ hlen]
  simp only [intCast_eq, zero_eq]
  rw [log_two_eq, log_finite_of_pos _ _ hkR, log_finite_of_pos _ _ hTR,
    finite_div_finite _ _ log_two_pos.ne', finite_div_finite _ _ log_two_pos.ne',
    Real.log_div_log, Real.log_div_log]
  simp only [finite_add_finite, finite_mul_finite, add_zero]
  have hmap : cs.map (fun c => calculateTreeBits api (Double.log Real.log) c
        (finite (Real.logb 2 ((cs.length : Int) : ℝ))))
      = ((ls.map (fun l => (Real.logb 2 ((cs.length : Int) : ℝ) + Real.logb 2 l) * l)).map
          (fun v => (Except.ok v : Except Failure ℝ))).map (Except.map finite) := by
    generalize Real.logb 2 ((cs.length : Int) : ℝ) = q
    clear hlen hk hkR
    induction hleaves with
    | nil => rfl
    | @cons c l cs' ls' hcl _ ih =>
      obtain ⟨hleaf, hL, hpos⟩ := hcl
      obtain ⟨es', cs'', as'⟩ := c
      simp only [Net.adjacencyComponentNumber, Net.adjacencyComponents, Nat.cast_eq_zero,
        List.length_eq_zero] at hleaf
      subst hleaf
      simp only [List.map_cons, ih]
      rw [calculateTreeBits_leaf_eq, hL]
      simp only [Except.map]
      rw [leaf_term_finite q l hpos]
  have h0 : (0 : Double ℝ) = finite 0 := rfl
  rw [hmap, sumResults, h0, sumResultsFrom_finite, sumResultsFrom_map_ok, zero_add]
  rfl

/-- Two leaves of contained length 4 and a segment aggregate of 10: each leaf
contributes 12 and `totalP = 24 + log2(10) * 10`. -/
theorem calculateTreeBits_root_of_leaves_witness :
    0 < twoLeavesNet.adjacencyComponentNumber
    ∧ List.Forall₂
        (fun c l => c.adjacencyComponentNumber = 0
          ∧ calculateTotalContainedSequence twoGapsAPI c = .ok (finite l) ∧ 0 < l)
        twoLeavesNet.adjacencyComponents [(4 : ℝ), 4]
    ∧ 0 < totalSequenceSize twoLeavesNet
    ∧ calculateTreeBits twoGapsAPI (Double.log Real.log) twoLeavesNet 0
        = .ok (finite (24 + Real.logb 2 10 * 10)) := by
  have hleaves : List.Forall₂
      (fun c l => c.adjacencyComponentNumber = 0
        ∧ calculateTotalContainedSequence twoGapsAPI c = .ok (finite l) ∧ 0 < l)
      twoLeavesNet.adjacencyComponents [(4 : ℝ), 4] := by
    refine List.Forall₂.cons ⟨by decide, ?_, by norm_num⟩
      (List.Forall₂.cons ⟨by decide, ?_, by norm_num⟩ List.Forall₂.nil)
    · simp [calculateTotalContainedSequence, Net.ends, endLoop, instanceLoop, instanceStep,
        twoGapsAPI, tableAPI, gapLength, toInt32]
    · simp [calculateTotalContainedSequence, Net.ends, endLoop, instanceLoop, instanceStep,
        twoGapsAPI, tableAPI, gapLength, toInt32]
  have h := calculateTreeBits_root_of_leaves twoGapsAPI twoLeavesNet [4, 4] (by decide)
    hleaves (by decide)
  have hk : ((twoLeavesNet.adjacencyComponentNumber : Int) : ℝ) = 2 := by
    simp [twoLeavesNet, Net.adjacencyComponentNumber, Net.adjacencyComponents]
  have hT : ((totalSequenceSize twoLeavesNet : Int) : ℝ) = 10 := by
    have : totalSequenceSize twoLeavesNet = 10 := by decide
    rw [this]
    norm_num
  have h4 : Real.logb 2 4 = 2 := by
    rw [show (4 : ℝ) = 2 ^ (2 : ℕ) by norm_num, Real.logb_pow,
      Real.logb_self_eq_one (by norm_num)]
    norm_num
  rw [hk, hT] at h
  simp only [List.map_cons, List.map_nil, List.sum_cons, List.sum_nil, h4,
    Real.logb_self_eq_one (by norm_num : (1 : ℝ) < 2)] at h
  norm_num at h
  exact ⟨by decide, hleaves, by decide, h⟩

/-- On the net with one leaf of contained length 8 and two atoms of length
`2^30`, the accumulator of line 66 holds `-2^31`, the logarithm of line 66 is
NaN and so is the result of `calculateTreeBits`. -/
theorem calculateTreeBits_largeAtomsNet :
    calculateTreeBits gap8API (Double.log Real.log) largeAtomsNet 0
      = .ok (Double.nan : Double ℝ) := by
  have hneg : Double.log Real.log (Double.finite (-2147483648 : ℝ)) = Double.nan :=
    Double.log_finite_of_neg Real.log _ (by norm_num)
  simp [calculateTreeBits, adjacencyComponentLoop, atomLoop, calculateTotalContainedSequence,
    Net.ends, largeAtomsNet, singleEndNet, endLoop, instanceLoop, instanceStep, gap8API,
    tableAPI, gapLength, toInt32, Double.log_finite_of_pos, Double.finite_div_finite,
    log_two_pos.ne', hneg]

/-- C8 fails on the program: the root `largeAtomsNet` has `k = 1` adjacency
component, a leaf of contained length `l_1 = 8 > 0`, and the segment
aggregate `T = 2^30 + 2^30 = 2^31 > 0`, so that C8 gives
`(log2(1) + log2(8)) * 8 + log2(2^31) * 2^31 = 24 + 31 * 2^31`; the
`int32_t` accumulator of lines 61-63 holds `-2^31` and `calculateTreeBits`
returns NaN. -/
theorem calculateTreeBits_root_of_leaves_overflow :
    0 < largeAtomsNet.adjacencyComponentNumber
    ∧ List.Forall₂
        (fun c l => c.adjacencyComponentNumber = 0
          ∧ calculateTotalContainedSequence gap8API c = .ok (finite l) ∧ 0 < l)
        largeAtomsNet.adjacencyComponents [(8 : ℝ)]
    ∧ exactSequenceSize largeAtomsNet.atoms = 2147483648
    ∧ (Real.logb 2 1 + Real.logb 2 8) * 8 + Real.logb 2 2147483648 * 2147483648
        = 24 + 31 * 2147483648
    ∧ calculateTreeBits gap8API (Double.log Real.log) largeAtomsNet 0
        = .ok (Double.nan : Double ℝ) := by
  have h8 : Real.logb 2 8 = 3 := by
    rw [show (8 : ℝ) = 2 ^ (3 : ℕ) by norm_num, Real.logb_pow,
      Real.logb_self_eq_one (by norm_num)]
    norm_num
  have h31 : Real.logb 2 2147483648 = 31 := by
    rw [show (2147483648 : ℝ) = 2 ^ (31 : ℕ) by norm_num, Real.logb_pow,
      Real.logb_self_eq_one (by norm_num)]
    norm_num
  refine ⟨by decide, ?_, by decide, ?_, calculateTreeBits_largeAtomsNet⟩
  · refine List.Forall₂.cons ⟨by decide, ?_, by norm_num⟩ List.Forall₂.nil
    simp [calculateTotalContainedSequence, Net.ends, singleEndNet, endLoop, instanceLoop,
      instanceStep, gap8API, tableAPI, gapLength, toInt32]
  · rw [h8, h31, Real.logb_one]
    norm_num

end RealValued

/-! ## The inequality between `totalP` and `totalQ` -/

section LogSum

/-- For positive `x`, `K` and `S`:
`(log K + log x) * x ≥ log S * x + x - S / K`. -/
theorem log_term_bound (x K S : ℝ) (hx : 0 < x) (hK : 0 < K) (hS : 0 < S) :
    Real.log S * x + x - S / K ≤ (Real.log K + Real.log x) * x := by
  have hpos : 0 < K * x / S := div_pos (mul_pos hK hx) hS
  have h1 := Real.one_sub_inv_le_log_of_pos hpos
  rw [Real.log_div (mul_pos hK hx).ne' hS.ne', Real.log_mul hK.ne' hx.ne'] at h1
  have h2 : (1 - (K * x / S)⁻¹) * x ≤ (Real.log K + Real.log x - Real.log S) * x :=
    mul_le_mul_of_nonneg_right h1 hx.le
  have h3 : (1 - (K * x / S)⁻¹) * x = x - S / K := by
    field_simp
    ring
  rw [h3] at h2
  linarith

theorem sum_log_term_bound (xs : List ℝ) (K S : ℝ) (hxs : ∀ x ∈ xs, 0 < x) (hK : 0 < K)
    (hS : 0 < S) :
    Real.log S * xs.sum + xs.sum - xs.length * (S / K)
      ≤ (xs.map (fun x => (Real.log K + Real.log x) * x)).sum := by
  induction xs with
  | nil => simp
  | cons x xs ih =>
    have hx : 0 < x := hxs x (List.mem_cons_self x xs)
    have ih' := ih (fun y hy => hxs y (List.mem_cons_of_mem x hy))
    have h1 := log_term_bound x K S hx hK hS
    simp only [List.sum_cons, List.map_cons, List.length_cons, Nat.cast_add, Nat.cast_one]
    linarith

theorem sum_logb_term (xs : List ℝ) (K : ℝ) :
    (xs.map (fun x => (Real.logb 2 K + Real.logb 2 x) * x)).sum
      = (xs.map (fun x => (Real.log K + Real.log x) * x)).sum / Real.log 2 := by
  induction xs with
  | nil => simp
  | cons x xs ih =>
    rw [List.map_cons, List.sum_cons, ih, List.map_cons, List.sum_cons]
    simp only [Real.logb]
    ring

/-- The log-sum inequality for `k` positive lengths:
`sum_j (log2 k + log2 l_j) * l_j ≥ log2 (sum_j l_j) * sum_j l_j`. -/
theorem logb_sum_le (xs : List ℝ) (hxs : ∀ x ∈ xs, 0 < x) (hne : xs ≠ []) :
    Real.logb 2 xs.sum * xs.sum
      ≤ (xs.map (fun x => (Real.logb 2 (xs.length : ℝ) + Real.logb 2 x) * x)).sum := by
  have hlen : (0 : ℝ) < xs.length := by exact_mod_cast List.length_pos.mpr hne
  have hsum : 0 < xs.sum := by
    cases xs with
    | nil => exact absurd rfl hne
    | cons x xs =>
      rw [List.sum_cons]
      have hx : 0 < x := hxs x (List.mem_cons_self x xs)
      have hrest : 0 ≤ xs.sum :=
        List.sum_nonneg (fun y hy => (hxs y (List.mem_cons_of_mem x hy)).le)
      linarith
  have h := sum_log_term_bound xs xs.length xs.sum hxs hlen hsum
  have hcancel : (xs.length : ℝ) * (xs.sum / xs.length) = xs.sum := by
    field_simp
  rw [hcancel] at h
  have hl2 : (0 : ℝ) < Real.log 2 := Real.log_pos (by norm_num)
  rw [sum_logb_term xs xs.length, Real.logb, div_mul_eq_mul_div, div_le_div_iff_of_pos_right hl2]
  linarith

end LogSum

section LowerBound

variable {I : Type}

theorem leafLengthList_eq (api : CactusAPI I) (cs : List (Net I)) :
    leafLengthList api cs = (cs.map (leafLength api)).sum := by
  induction cs with
  | nil => rfl
  | cons c cs ih => simp [leafLengthList, ih]

theorem leafLength_internal (api : CactusAPI I) (es : List (End I)) (cs : List (Net I))
    (as : List Atom) (hcs : cs ≠ []) :
    leafLength api (.mk es cs as) = (cs.map (leafLength api)).sum := by
  cases cs with
  | nil => exact absurd rfl hcs
  | cons c cs => simp [leafLength, leafLengthList_eq]

theorem cast_sum_map (cs : List (Net I)) (f : Net I → Int) :
    (((cs.map f).sum : Int) : ℝ) = (cs.map (fun c => (f c : ℝ))).sum := by
  induction cs with
  | nil => simp
  | cons c cs ih => simp [ih]

theorem sumResultsFrom_lower_bound {β : Type} (f : β → Except Failure ℝ) (g : β → ℝ)
    (cs : List β) (t : ℝ) (h : ∀ c ∈ cs, ∃ v, f c = .ok v ∧ g c ≤ v) :
    ∃ s, sumResultsFrom t (cs.map f) = .ok (t + s) ∧ (cs.map g).sum ≤ s := by
  induction cs generalizing t with
  | nil => exact ⟨0, by simp [sumResultsFrom], by simp⟩
  | cons c cs ih =>
    obtain ⟨v, hv, hgv⟩ := h c (List.mem_cons_self c cs)
    obtain ⟨s, hs, hgs⟩ := ih (t + v) (fun c' hc' => h c' (List.mem_cons_of_mem c hc'))
    refine ⟨v + s, ?_, ?_⟩
    · rw [List.map_cons, hv, sumResultsFrom, hs, add_assoc]
    · rw [List.map_cons, List.sum_cons]
      linarith

theorem sum_shifted_term (xs : List ℝ) (a p : ℝ) :
    (xs.map (fun x => (a + p + Real.logb 2 x) * x)).sum
      = p * xs.sum + (xs.map (fun x => (a + Real.logb 2 x) * x)).sum := by
  induction xs with
  | nil => simp
  | cons x xs ih =>
    rw [List.map_cons, List.sum_cons, ih, List.map_cons, List.sum_cons, List.sum_cons]
    ring

/-- On a net that satisfies `runtimePositive` and for a path bit score
`p ≥ 0`, `calculateTreeBits` returns a value that is at least
`(p + log2(N)) * N`, where `N` is the total contained length of the leaves of
the net. -/
theorem calculateTreeBits_lower_bound (api : CactusAPI I) (net : Net I) :
    runtimePositive api net = true →
      0 < leafLength api net
      ∧ ∀ p : ℝ, 0 ≤ p → ∃ v, calculateTreeBits api Real.log net p = .ok v
          ∧ (p + Real.logb 2 (leafLength api net : ℝ)) * (leafLength api net : ℝ) ≤ v := by
  induction net using Net.induction with
  | h es cs as ih =>
    intro hwf
    cases cs with
    | nil =>
      obtain ⟨hchecks, hpos⟩ := (runtimePositive_leaf_iff api es as).mp hwf
      refine ⟨hpos, fun p _ => ⟨_, ?_, le_rfl⟩⟩
      rw [calculateTreeBits_leaf_eq,
        calculateTotalContainedSequence_of_checks api (.mk es [] as) hchecks]
      simp only [Except.map, Real.log_div_log]
      rfl
    | cons c cs =>
      have hne : c :: cs ≠ [] := List.cons_ne_nil c cs
      obtain ⟨hT, hchildren⟩ := (runtimePositive_internal_iff api es (c :: cs) as hne).mp hwf
      have hk : 0 < (c :: cs).length := List.length_pos.mpr hne
      generalize hcs : c :: cs = cs' at *
      have hxs : ∀ x ∈ cs'.map (fun c' => (leafLength api c' : ℝ)), 0 < x := by
        intro x hx
        obtain ⟨c', hc', rfl⟩ := List.mem_map.mp hx
        exact_mod_cast (ih c' hc' (hchildren c' hc')).1
      have hxne : cs'.map (fun c' => (leafLength api c' : ℝ)) ≠ [] := by
        simpa using hne
      have hN : ((leafLength api (.mk es cs' as) : Int) : ℝ)
          = (cs'.map (fun c' => (leafLength api c' : ℝ))).sum := by
        rw [leafLength_internal api es cs' as hne, cast_sum_map]
      have hsumpos : 0 < (cs'.map (fun c' => (leafLength api c' : ℝ))).sum := by
        cases hc : cs'.map (fun c' => (leafLength api c' : ℝ)) with
        | nil => exact absurd hc hxne
        | cons x xs =>
          rw [hc] at hxs
          rw [List.sum_cons]
          have hx : 0 < x := hxs x (List.mem_cons_self x xs)
          have hrest : 0 ≤ xs.sum :=
            List.sum_nonneg (fun y hy => (hxs y (List.mem_cons_of_mem x hy)).le)
          linarith
      refine ⟨by exact_mod_cast hN ▸ hsumpos, fun p hp => ?_⟩
      have hkR : (1 : ℝ) ≤ ((cs'.length : Int) : ℝ) := by exact_mod_cast hk
      have hq : 0 ≤ Real.logb 2 ((cs'.length : Int) : ℝ) + p :=
        add_nonneg (Real.logb_nonneg (by norm_num) hkR) hp
      have hTR : (1 : ℝ) ≤ ((atomLoop 0 as : Int) : ℝ) := by
        have : 1 ≤ atomLoop 0 as := hT
        exact_mod_cast this
      have hown : 0 ≤ (Real.logb 2 ((atomLoop 0 as : Int) : ℝ) + p)
          * ((atomLoop 0 as : Int) : ℝ) :=
        mul_nonneg (add_nonneg (Real.logb_nonneg (by norm_num) hTR) hp) (by linarith)
      obtain ⟨s, hs, hbound⟩ := sumResultsFrom_lower_bound
        (fun c' => calculateTreeBits api Real.log c'
          (Real.logb 2 ((cs'.length : Int) : ℝ) + p))
        (fun c' => (Real.logb 2 ((cs'.length : Int) : ℝ) + p
          + Real.logb 2 (leafLength api c' : ℝ)) * (leafLength api c' : ℝ))
        cs' 0 (fun c' hc' => (ih c' hc' (hchildren c' hc')).2 _ hq)
      refine ⟨0 + s + (Real.logb 2 ((atomLoop 0 as : Int) : ℝ) + p)
        * ((atomLoop 0 as : Int) : ℝ), ?_, ?_⟩
      · rw [calculateTreeBits_internal_eq _ _ _ _ _ _ hk]
        simp only [Real.log_div_log, sumResults]
        rw [hs]
        rfl
      · have hmap : (cs'.map (fun c' => (Real.logb 2 ((cs'.length : Int) : ℝ) + p
              + Real.logb 2 (leafLength api c' : ℝ)) * (leafLength api c' : ℝ))).sum
            = ((cs'.map (fun c' => (leafLength api c' : ℝ))).map
                (fun x => (Real.logb 2 ((cs'.length : Int) : ℝ) + p
                  + Real.logb 2 x) * x)).sum := by
          rw [List.map_map]
          rfl
        rw [hmap, sum_shifted_term] at hbound
        have hlogsum := logb_sum_le _ hxs hxne
        rw [List.length_map] at hlogsum
        have hcast : ((cs'.length : Int) : ℝ) = (cs'.length : ℝ) := by norm_cast
        rw [hcast] at hbound
        rw [hN]
        simp only [zero_add]
        linarith

end LowerBound

section Entropy

variable {I : Type}

open Double

/-- In exact arithmetic the two values can be equal: for a root whose own
pairings have length 12 over two leaves of contained length 6 and a segment
aggregate of 1, `totalP = totalQ = log2(12) * 12`.  The comparison of line
182 is then decided by the rounding of the two computations, which this
development does not represent. -/
theorem totalP_eq_totalQ_balanced :
    calculateTreeBits twoSixesAPI Real.log balancedRootNet 0 = .ok (Real.logb 2 12 * 12)
    ∧ calculateTotalContainedSequence twoSixesAPI balancedRootNet = .ok (12 : ℝ) := by
  have h2 : (0 : ℝ) < Real.log 2 := Real.log_pos (by norm_num)
  have h12 : Real.log 12 = Real.log 2 + Real.log 6 := by
    rw [show (12 : ℝ) = 2 * 6 by norm_num, Real.log_mul (by norm_num) (by norm_num)]
  constructor
  · simp [calculateTreeBits, adjacencyComponentLoop, atomLoop, calculateTotalContainedSequence,
      Net.ends, balancedRootNet, endLoop, instanceLoop, instanceStep, twoSixesAPI, tableAPI,
      gapLength, toInt32, Real.logb, h12]
    field_simp
    ring
  · simp [calculateTotalContainedSequence, Net.ends, balancedRootNet, endLoop, instanceLoop,
      instanceStep, twoSixesAPI, tableAPI, gapLength, toInt32]
    norm_num

end Entropy

/-! ## The gap in 32-bit arithmetic -/

section GapArithmetic

variable {I : Type} {α : Type} [Field α]

/-- Two coordinates in the non-negative range of `int32_t` have a gap that
is representable in 32 bits. -/
theorem gapFits_of_nonneg (api : CactusAPI I) (x : I)
    (hs : 0 ≤ api.endInstance_getCoordinate x)
    (hs' : api.endInstance_getCoordinate x ≤ 2147483647)
    (ht : 0 ≤ api.endInstance_getCoordinate (api.endInstance_getAdjacency x))
    (ht' : api.endInstance_getCoordinate (api.endInstance_getAdjacency x) ≤ 2147483647) :
    GapFits api x := by
  unfold GapFits exactGap
  omega

/-- C18, as stated, fails in both directions.  With `self.coordinate = 1` and
`target.coordinate = -2^31` the exact gap is `-2^31 - 2`, the computed gap is
`2^31 - 2`, and the check passes and adds that value.  With
`self.coordinate = -2^31` and `target.coordinate = 2^31 - 1` the exact gap is
`2^32 - 2`, the computed gap is -2, and the check fails.  All four
coordinates are `int32_t` values. -/
theorem gapLength_wraps_counterexample :
    (exactGap wrapAPI 0 = -2147483650 ∧ gapLength wrapAPI 0 = 2147483646
        ∧ (instanceStep wrapAPI (0 : ℚ) 0 = .ok 2147483646))
      ∧ (exactGap wrapUpAPI 0 = 4294967294 ∧ gapLength wrapUpAPI 0 = -2
        ∧ (instanceStep wrapUpAPI (0 : ℚ) 0 = .error .lengthAssertion)) := by
  refine ⟨⟨by decide, by decide, ?_⟩, ⟨by decide, by decide, ?_⟩⟩
  · simp [instanceStep, wrapAPI, tableAPI, gapLength, toInt32]
  · simp [instanceStep, wrapUpAPI, tableAPI, gapLength, toInt32]

/-- C18, amended: for an instance and its adjacency whose exact gap
`target.coordinate - self.coordinate - 1` is representable in 32 bits (as it
is for two non-negative coordinates), the gap line 37 computes equals the
exact gap; at a retained instance whose adjacency passes the strand check,
the check of line 38 passes exactly when the exact gap is non-negative, and
the step then adds the exact gap. -/
theorem gapLength_exact_of_fits (api : CactusAPI I) (totalLength : α) (y : I)
    (hfit : GapFits api (api.endInstance_getPositiveOrientation y))
    (hside : api.endInstance_getSide (api.endInstance_getPositiveOrientation y) = false)
    (hstrand : api.endInstance_getStrand (api.endInstance_getAdjacency
      (api.endInstance_getPositiveOrientation y)) = true) :
    gapLength api (api.endInstance_getPositiveOrientation y)
        = exactGap api (api.endInstance_getPositiveOrientation y)
      ∧ (instanceStep api totalLength y
            = .ok (totalLength
              + ((exactGap api (api.endInstance_getPositiveOrientation y) : Int) : α))
          ↔ 0 ≤ exactGap api (api.endInstance_getPositiveOrientation y))
      ∧ (instanceStep api totalLength y = .error .lengthAssertion
          ↔ exactGap api (api.endInstance_getPositiveOrientation y) < 0) := by
  have hgap := gapLength_eq_exactGap api _ hfit
  refine ⟨hgap, ?_, ?_⟩
  · unfold instanceStep
    simp only [hside, Bool.not_false, ↓reduceIte, hstrand, hgap, ge_iff_le]
    by_cases h2 : 0 ≤ exactGap api (api.endInstance_getPositiveOrientation y)
    · simp [h2]
    · simp [h2]
  · unfold instanceStep
    simp only [hside, Bool.not_false, ↓reduceIte, hstrand, hgap, ge_iff_le]
    by_cases h2 : 0 ≤ exactGap api (api.endInstance_getPositiveOrientation y)
    · simp [h2]
    · simp [h2, not_le.mp h2]

/-- The pairing of gap 8 satisfies the hypotheses of
`gapLength_exact_of_fits`. -/
theorem gapLength_exact_of_fits_witness :
    GapFits gap8API (gap8API.endInstance_getPositiveOrientation 0)
    ∧ gap8API.endInstance_getSide (gap8API.endInstance_getPositiveOrientation 0) = false
    ∧ gap8API.endInstance_getStrand (gap8API.endInstance_getAdjacency
        (gap8API.endInstance_getPositiveOrientation 0)) = true
    ∧ (gapLength gap8API (gap8API.endInstance_getPositiveOrientation 0)
        = exactGap gap8API (gap8API.endInstance_getPositiveOrientation 0)
      ∧ (instanceStep gap8API (0 : ℚ) 0
            = .ok ((0 : ℚ)
              + ((exactGap gap8API (gap8API.endInstance_getPositiveOrientation 0) : Int) : ℚ))
          ↔ 0 ≤ exactGap gap8API (gap8API.endInstance_getPositiveOrientation 0))
      ∧ (instanceStep gap8API (0 : ℚ) 0 = .error .lengthAssertion
          ↔ exactGap gap8API (gap8API.endInstance_getPositiveOrientation 0) < 0)) :=
  ⟨by decide, by decide, by decide,
    gapLength_exact_of_fits gap8API 0 0 (by decide) (by decide) (by decide)⟩

end GapArithmetic

/-! ## The result of `calculateTotalContainedSequence` is a natural number -/

section NonNegative

variable {I : Type} {α : Type} [Field α]

theorem containedLength_nonneg (api : CactusAPI I) (net : Net I)
    (h : ∀ x ∈ paired api net.ends, PairingOk api x) : 0 ≤ containedLength api net := by
  unfold containedLength
  apply List.sum_nonneg
  intro g hg
  obtain ⟨x, hx, rfl⟩ := List.mem_map.mp hg
  exact (h x hx).2

/-- C15: whenever `calculateTotalContainedSequence` completes without a
failed check, every gap it has added is an integer `>= 0` and its result is a
non-negative integer, the sum of these gaps; the result is 0 when the net has
no retained instance with `side == false`. -/
theorem calculateTotalContainedSequence_nonneg_integer (api : CactusAPI I) (net : Net I)
    (total : α) (h : calculateTotalContainedSequence api net = .ok total) :
    (∀ x ∈ paired api net.ends, 0 ≤ gapLength api x)
      ∧ (∃ n : ℕ, total = (n : α) ∧ (n : Int) = containedLength api net)
      ∧ (paired api net.ends = [] → total = 0) := by
  unfold calculateTotalContainedSequence at h
  obtain ⟨hall, hsum⟩ := (endLoop_ok_iff api net.ends 0 total).mp h
  rw [zero_add] at hsum
  have hnonneg := containedLength_nonneg api net hall
  refine ⟨fun x hx => (hall x hx).2, ⟨(containedLength api net).toNat, ?_, ?_⟩, ?_⟩
  · rw [hsum]
    have hcast : ((containedLength api net).toNat : Int) = containedLength api net :=
      Int.toNat_of_nonneg hnonneg
    show (((containedLength api net : Int)) : α) = (((containedLength api net).toNat : ℕ) : α)
    conv_lhs => rw [← hcast]
    exact Int.cast_natCast _
  · exact Int.toNat_of_nonneg hnonneg
  · intro hnil
    rw [hsum, hnil]
    simp

/-- The net with one pairing of gap 8 satisfies the hypothesis of
`calculateTotalContainedSequence_nonneg_integer`. -/
theorem calculateTotalContainedSequence_nonneg_integer_witness :
    (calculateTotalContainedSequence gap8API singleEndNet : Except Failure ℚ) = .ok 8
    ∧ ((∀ x ∈ paired gap8API singleEndNet.ends, 0 ≤ gapLength gap8API x)
      ∧ (∃ n : ℕ, (8 : ℚ) = (n : ℚ) ∧ (n : Int) = containedLength gap8API singleEndNet)
      ∧ (paired gap8API singleEndNet.ends = [] → (8 : ℚ) = 0)) :=
  have h : (calculateTotalContainedSequence gap8API singleEndNet : Except Failure ℚ) = .ok 8 := by
    simp [calculateTotalContainedSequence, Net.ends, singleEndNet, endLoop, instanceLoop,
      instanceStep, gap8API, tableAPI, gapLength, toInt32]
  ⟨h, calculateTotalContainedSequence_nonneg_integer gap8API singleEndNet 8 h⟩

end NonNegative

/-! ## The ends of an internal net are not read -/

section InternalEnds

variable {I : Type} {α : Type} [Zero α] [Add α] [Mul α] [Div α] [IntCast α] [OfNat α 2]

/-- C13: on an internal net `calculateTreeBits` does not read the ends of the
net: two internal nets that differ only in their ends and end instances give
the same result, failure or value, for every path bit score, so a corrupt
pairing at an end of an internal net cannot make `calculateTreeBits` fail.
This holds in every reading of `double`. -/
theorem calculateTreeBits_internal_ignores_ends (api : CactusAPI I) (ln : α → α)
    (ends ends' : List (End I)) (adjacencyComponents : List (Net I)) (atoms : List Atom)
    (pathBitScore : α) (hk : 0 < (Net.mk ends adjacencyComponents atoms).adjacencyComponentNumber) :
    calculateTreeBits api ln (.mk ends adjacencyComponents atoms) pathBitScore
      = calculateTreeBits api ln (.mk ends' adjacencyComponents atoms) pathBitScore := by
  simp only [Net.adjacencyComponentNumber, Net.adjacencyComponents] at hk
  have hlen : 0 < adjacencyComponents.length := by exact_mod_cast hk
  rw [calculateTreeBits_internal_eq _ _ _ _ _ _ hlen,
    calculateTreeBits_internal_eq _ _ _ _ _ _ hlen]

/-- The root of `corruptRootNet` has an end with a pairing of gap -21, on
which `calculateTotalContainedSequence` fails; `calculateTreeBits` returns
what it returns without that end. -/
theorem calculateTreeBits_internal_ignores_ends_witness :
    0 < corruptRootNet.adjacencyComponentNumber
    ∧ (calculateTotalContainedSequence corruptAPI corruptRootNet : Except Failure ℝ)
        = .error .lengthAssertion
    ∧ calculateTreeBits corruptAPI Real.log corruptRootNet 0
        = calculateTreeBits corruptAPI Real.log twoLeavesNet 0
    ∧ calculateTreeBits corruptAPI Real.log twoLeavesNet 0
        = .ok (24 + Real.logb 2 10 * 10) := by
  refine ⟨by decide, ?_, calculateTreeBits_internal_ignores_ends corruptAPI Real.log _ _ _ _ 0
    (by decide), ?_⟩
  · simp [calculateTotalContainedSequence, Net.ends, corruptRootNet, endLoop, instanceLoop,
      instanceStep, corruptAPI, tableAPI, gapLength, toInt32]
  · have h2 : (0 : ℝ) < Real.log 2 := Real.log_pos (by norm_num)
    have h4 : Real.log 4 = 2 * Real.log 2 := by
      rw [show (4 : ℝ) = 2 ^ (2 : ℕ) by norm_num, Real.log_pow]
      norm_num
    simp [calculateTreeBits, adjacencyComponentLoop, atomLoop, calculateTotalContainedSequence,
      Net.ends, twoLeavesNet, endLoop, instanceLoop, instanceStep, corruptAPI, tableAPI,
      gapLength, toInt32, h4, Real.logb]
    field_simp
    ring

end InternalEnds

/-! ## `calculateTreeBits` is affine in the path bit score -/

theorem calculateTotalContainedSequence_value {I α : Type} [Field α] (api : CactusAPI I)
    (net : Net I) (total : α) (h : calculateTotalContainedSequence api net = .ok total) :
    total = (((paired api net.ends).map (gapLength api)).sum : Int) := by
  unfold calculateTotalContainedSequence at h
  obtain ⟨-, hsum⟩ := (endLoop_ok_iff api net.ends 0 total).mp h
  rw [zero_add] at hsum
  exact hsum


section Affine

variable {I : Type} {α : Type} [Field α]

theorem subtreeSizeList_eq (api : CactusAPI I) (cs : List (Net I)) :
    subtreeSizeList api cs = (cs.map (subtreeSize api)).sum := by
  induction cs with
  | nil => rfl
  | cons c cs ih => simp [subtreeSizeList, ih]

theorem subtreeSize_internal (api : CactusAPI I) (es : List (End I)) (cs : List (Net I))
    (as : List Atom) (hcs : cs ≠ []) :
    subtreeSize api (.mk es cs as) = atomLoop 0 as + (cs.map (subtreeSize api)).sum := by
  cases cs with
  | nil => exact absurd rfl hcs
  | cons c cs => simp [subtreeSize, subtreeSizeList_eq, totalSequenceSize, Net.atoms]

theorem except_map_ok {β γ : Type} (g : β → γ) (v : β) :
    Except.map g (.ok v : Except Failure β) = .ok (g v) := rfl

theorem except_map_error {β γ : Type} (g : β → γ) (e : Failure) :
    Except.map g (.error e : Except Failure β) = .error e := rfl

theorem sumResultsFrom_add (t a : α) (rs : List (Except Failure α)) :
    sumResultsFrom (t + a) rs = Except.map (fun v => v + a) (sumResultsFrom t rs) := by
  induction rs generalizing t with
  | nil => rfl
  | cons r rs ih =>
    cases r with
    | error e => rfl
    | ok v =>
      simp only [sumResultsFrom]
      rw [← ih (t + v), add_right_comm]

/-- Shifting every result of a list by `q * d c` shifts the sum of the
results by `q` times the sum of the `d c`. -/
theorem sumResultsFrom_shift {β : Type} (f : β → Except Failure α) (d : β → α) (q : α)
    (cs : List β) (t : α) :
    sumResultsFrom t (cs.map (fun c => Except.map (fun v => v + q * d c) (f c)))
      = Except.map (fun v => v + q * (cs.map d).sum) (sumResultsFrom t (cs.map f)) := by
  induction cs generalizing t with
  | nil => simp [sumResultsFrom, except_map_ok]
  | cons c cs ih =>
    rw [List.map_cons, List.map_cons, List.map_cons, List.sum_cons]
    cases hc : f c with
    | error e => rfl
    | ok v =>
      rw [except_map_ok, sumResultsFrom, sumResultsFrom, ih, ← add_assoc, sumResultsFrom_add]
      cases sumResultsFrom (t + v) (cs.map f) with
      | error e => rfl
      | ok s =>
        rw [except_map_ok, except_map_ok, except_map_ok]
        congr 1
        ring

/-- `calculateTreeBits` at the path bit score `p` is `calculateTreeBits` at 0
plus `p` times the total sequence size of the subtree, with the same
failures. -/
theorem calculateTreeBits_affine (api : CactusAPI I) (ln : α → α) (net : Net I) :
    ∀ p : α, calculateTreeBits api ln net p
      = Except.map (fun v => v + p * (subtreeSize api net : α))
          (calculateTreeBits api ln net 0) := by
  induction net using Net.induction with
  | h es cs as ih =>
    intro p
    cases cs with
    | nil =>
      rw [calculateTreeBits_leaf_eq, calculateTreeBits_leaf_eq]
      cases hi : (calculateTotalContainedSequence api (.mk es [] as) : Except Failure α) with
      | error e => rfl
      | ok i =>
        have hval := (calculateTotalContainedSequence_value api (.mk es [] as) i hi)
        rw [except_map_ok, except_map_ok, except_map_ok]
        congr 1
        simp only [subtreeSize, containedLength]
        rw [← hval]
        ring
    | cons c cs =>
      have hne : c :: cs ≠ [] := List.cons_ne_nil c cs
      have hk : 0 < (c :: cs).length := List.length_pos.mpr hne
      generalize c :: cs = cs' at *
      rw [calculateTreeBits_internal_eq _ _ _ _ _ _ hk,
        calculateTreeBits_internal_eq _ _ _ _ _ _ hk, sumResults, sumResults]
      have hmap : ∀ q : α, cs'.map (fun c' => calculateTreeBits api ln c' q)
          = cs'.map (fun c' => Except.map (fun v => v + q * (subtreeSize api c' : α))
              (calculateTreeBits api ln c' 0)) :=
        fun q => List.map_congr_left (fun c' hc' => ih c' hc' q)
      rw [hmap (ln ((cs'.length : Int) : α) / ln 2 + p),
        hmap (ln ((cs'.length : Int) : α) / ln 2 + 0), sumResultsFrom_shift,
        sumResultsFrom_shift]
      have hsize : ((subtreeSize api (.mk es cs' as) : Int) : α)
          = ((atomLoop 0 as : Int) : α) + (cs'.map (fun c' => (subtreeSize api c' : α))).sum := by
        rw [subtreeSize_internal api es cs' as hne, Int.cast_add]
        congr 1
        clear hmap ih hk hne
        induction cs' with
        | nil => simp
        | cons c' cs' ih' => simp [ih']
      rw [hsize]
      cases sumResultsFrom 0 (cs'.map (fun c' => calculateTreeBits api ln c' 0)) with
      | error e => rfl
      | ok s =>
        simp only [except_map_ok]
        congr 1
        ring

end Affine

/-! ## `calculateTreeBits` is non-negative and monotone -/

section Monotone

variable {I : Type}

open Double

theorem subtreeSize_pos (api : CactusAPI I) (net : Net I) :
    runtimePositive api net = true → 0 < subtreeSize api net := by
  induction net using Net.induction with
  | h es cs as ih =>
    intro hwf
    cases cs with
    | nil => exact ((runtimePositive_leaf_iff api es as).mp hwf).2
    | cons c cs =>
      have hne : c :: cs ≠ [] := List.cons_ne_nil c cs
      obtain ⟨hT, hchildren⟩ := (runtimePositive_internal_iff api es (c :: cs) as hne).mp hwf
      rw [subtreeSize_internal api es (c :: cs) as hne]
      have hsum : 0 ≤ ((c :: cs).map (subtreeSize api)).sum := by
        apply List.sum_nonneg
        intro s hs
        obtain ⟨c', hc', rfl⟩ := List.mem_map.mp hs
        exact (ih c' hc' (hchildren c' hc')).le
      have hT' : 0 < atomLoop 0 as := hT
      omega

/-- On a tree that satisfies the documented precondition and whose segment
aggregates are representable in 32 bits, for path bit scores `0 ≤ p ≤ q` the
values of `calculateTreeBits` at `p` and at `q` are finite, the value at `p`
is `>= 0`, and the value at `q` is at least the value at `p`. -/
theorem calculateTreeBits_nonneg_monotone (api : CactusAPI I) (net : Net I) (p q : ℝ)
    (hpre : documentedPrecondition api net = true) (hfit : aggregatesFit net = true)
    (hp : 0 ≤ p) (hpq : p ≤ q) :
    ∃ v w : ℝ,
      calculateTreeBits api (Double.log Real.log) net (finite p) = .ok (finite v)
      ∧ calculateTreeBits api (Double.log Real.log) net (finite q) = .ok (finite w)
      ∧ 0 ≤ v ∧ v ≤ w := by
  have hwf := runtimePositive_of_documentedPrecondition api net hpre hfit
  obtain ⟨hN, hbound⟩ := calculateTreeBits_lower_bound api net hwf
  obtain ⟨v, hv, hle_v⟩ := hbound p hp
  have hNR : (1 : ℝ) ≤ (leafLength api net : ℝ) := by
    have : 1 ≤ leafLength api net := hN
    exact_mod_cast this
  have hv0 : 0 ≤ v :=
    le_trans (mul_nonneg (add_nonneg hp (Real.logb_nonneg (by norm_num) hNR)) (by linarith))
      hle_v
  have hS : (0 : ℝ) < (subtreeSize api net : ℝ) := by
    exact_mod_cast subtreeSize_pos api net hwf
  have hp' := calculateTreeBits_affine api Real.log net p
  have hq' := calculateTreeBits_affine api Real.log net q
  cases h0 : calculateTreeBits api Real.log net 0 with
  | error e =>
    rw [h0, hv] at hp'
    cases hp'
  | ok v0 =>
    rw [h0, except_map_ok] at hp' hq'
    rw [hv] at hp'
    have hveq : v = v0 + p * (subtreeSize api net : ℝ) := Except.ok.inj hp'
    refine ⟨v, v0 + q * (subtreeSize api net : ℝ), ?_, ?_, hv0, ?_⟩
    · have h := calculateTreeBits_finite api Real.log log_two_pos.ne' net hwf p
      rw [hv] at h
      exact h
    · have h := calculateTreeBits_finite api Real.log log_two_pos.ne' net hwf q
      rw [hq'] at h
      exact h
    · rw [hveq]
      have := mul_le_mul_of_nonneg_right hpq hS.le
      linarith

/-- The net with two leaves satisfies the hypotheses of
`calculateTreeBits_nonneg_monotone`. -/
theorem calculateTreeBits_nonneg_monotone_witness :
    documentedPrecondition twoGapsAPI twoLeavesNet = true
    ∧ aggregatesFit twoLeavesNet = true ∧ (0 : ℝ) ≤ 1 ∧ (1 : ℝ) ≤ 2
    ∧ ∃ v w : ℝ,
      calculateTreeBits twoGapsAPI (Double.log Real.log) twoLeavesNet (finite 1) = .ok (finite v)
      ∧ calculateTreeBits twoGapsAPI (Double.log Real.log) twoLeavesNet (finite 2)
          = .ok (finite w)
      ∧ 0 ≤ v ∧ v ≤ w :=
  ⟨by decide, by decide, by norm_num, by norm_num,
    calculateTreeBits_nonneg_monotone twoGapsAPI twoLeavesNet 1 2 (by decide) (by decide)
      (by norm_num) (by norm_num)⟩

/-- C17 fails on the program: in the tree `largeAtomsNet` the leaf has the
contained length 8, the segment aggregate of the root is the positive integer
`2^30 + 2^30 = 2^31` and no pairing check fails, yet at the path bit score
`0` the `int32_t` accumulator of lines 61-63 holds `-2^31` and
`calculateTreeBits` returns NaN, which is not `>= 0`. -/
theorem calculateTreeBits_nan_on_positive_tree :
    documentedPrecondition gap8API largeAtomsNet = true
    ∧ exactSequenceSize largeAtomsNet.atoms = 2147483648
    ∧ calculateTreeBits gap8API (Double.log Real.log) largeAtomsNet (finite 0)
        = .ok (Double.nan : Double ℝ)
    ∧ ¬ ((finite 0 : Double ℝ) ≤ Double.nan) :=
  ⟨by decide, by decide, calculateTreeBits_largeAtomsNet, Double.not_le_nan _⟩

end Monotone

/-! ## The order of the adjacency components -/

section SiblingOrder

variable {I : Type} {α : Type} [Field α]

theorem SameValue.map {β γ : Type} (g : β → γ) {r r' : Except Failure β} (h : SameValue r r') :
    SameValue (Except.map g r) (Except.map g r') := by
  intro v
  cases r with
  | error e =>
    cases r' with
    | error e' => simp [Except.map]
    | ok s' =>
      have := (h s').mpr rfl
      cases this
  | ok s =>
    have hs := (h s).mp rfl
    rw [hs]

/-- A permutation of a list of results does not change the value of their
sum. -/
theorem sumResultsFrom_perm (rs rs' : List (Except Failure α)) (hperm : rs.Perm rs') :
    ∀ t : α, SameValue (sumResultsFrom t rs) (sumResultsFrom t rs') := by
  induction hperm with
  | nil => exact fun t v => Iff.rfl
  | cons r _ ih =>
    intro t
    cases r with
    | error e => exact fun v => Iff.rfl
    | ok a => exact ih (t + a)
  | swap r1 r2 l =>
    intro t v
    cases r1 with
    | error e1 =>
      cases r2 with
      | error e2 => simp [sumResultsFrom]
      | ok a2 => simp [sumResultsFrom]
    | ok a1 =>
      cases r2 with
      | error e2 => simp [sumResultsFrom]
      | ok a2 =>
        simp only [sumResultsFrom]
        rw [add_right_comm]
  | trans _ _ ih1 ih2 =>
    intro t v
    exact (ih1 t v).trans (ih2 t v)

/-- Replacing one result of a list by a result with the same value does not
change the value of the sum. -/
theorem sumResultsFrom_replace (before after : List (Except Failure α))
    (r r' : Except Failure α) (h : SameValue r r') :
    ∀ t : α, SameValue (sumResultsFrom t (before ++ r :: after))
      (sumResultsFrom t (before ++ r' :: after)) := by
  induction before with
  | nil =>
    intro t v
    cases r with
    | error e =>
      cases r' with
      | error e' => simp [sumResultsFrom]
      | ok s' =>
        have := (h s').mpr rfl
        cases this
    | ok s =>
      have hs := (h s).mp rfl
      rw [hs]
  | cons x before ih =>
    intro t
    cases x with
    | error e => exact fun v => Iff.rfl
    | ok a => exact ih (t + a)

/-- Permuting the adjacency components, at any levels, does not change the
value of `calculateTreeBits`. -/
theorem calculateTreeBits_permuted (api : CactusAPI I) (ln : α → α) (net net' : Net I)
    (h : Permuted net net') :
    ∀ p : α, SameValue (calculateTreeBits api ln net p) (calculateTreeBits api ln net' p) := by
  induction h with
  | refl net => exact fun p v => Iff.rfl
  | siblings es as cs cs' hperm =>
    intro p
    cases cs with
    | nil =>
      rw [List.nil_perm.mp hperm]
      exact fun v => Iff.rfl
    | cons c cs =>
      have hk : 0 < (c :: cs).length := Nat.succ_pos _
      have hk' : 0 < cs'.length := by
        rw [← hperm.length_eq]
        exact hk
      rw [calculateTreeBits_internal_eq _ _ _ _ _ _ hk,
        calculateTreeBits_internal_eq _ _ _ _ _ _ hk', ← hperm.length_eq]
      apply SameValue.map
      exact sumResultsFrom_perm _ _ (hperm.map _) 0
  | child es as before after c c' _ ih =>
    intro p
    have hk : 0 < (before ++ c :: after).length := by simp
    have hk' : 0 < (before ++ c' :: after).length := by simp
    have hlen : (before ++ c' :: after).length = (before ++ c :: after).length := by simp
    rw [calculateTreeBits_internal_eq _ _ _ _ _ _ hk,
      calculateTreeBits_internal_eq _ _ _ _ _ _ hk', hlen]
    apply SameValue.map
    rw [sumResults, sumResults, List.map_append, List.map_append, List.map_cons, List.map_cons]
    exact sumResultsFrom_replace _ _ _ _ (ih _) 0
  | trans a b c _ _ ih1 ih2 =>
    intro p v
    exact (ih1 p v).trans (ih2 p v)

/-- C12: permuting the iteration order of the adjacency components of
internal nets, at any levels of the tree, does not change the value of
`calculateTreeBits` in exact arithmetic: for every path bit score the original
and the permuted tree return the same value, or both fail. -/
theorem calculateTreeBits_order_independent (api : CactusAPI I) (ln : α → α)
    (net net' : Net I) (p : α) (h : Permuted net net') :
    ∀ v, calculateTreeBits api ln net p = .ok v ↔ calculateTreeBits api ln net' p = .ok v :=
  calculateTreeBits_permuted api ln net net' h p

/-- The net with two leaves and the net with the two leaves in the other
order. -/
theorem calculateTreeBits_order_independent_witness :
    Permuted twoLeavesNet twoLeavesSwappedNet
    ∧ ∀ v, calculateTreeBits twoGapsAPI Real.log twoLeavesNet 0 = .ok v
        ↔ calculateTreeBits twoGapsAPI Real.log twoLeavesSwappedNet 0 = .ok v :=
  have h : Permuted twoLeavesNet twoLeavesSwappedNet :=
    Permuted.siblings _ _ _ _ (List.Perm.swap _ _ _)
  ⟨h, calculateTreeBits_order_independent twoGapsAPI Real.log _ _ 0 h⟩

/-- When two nested nets fail different checks, the order of the adjacency
components decides which assertion aborts the run: the value is the same
(there is none), the failure is not. -/
theorem calculateTreeBits_failure_depends_on_order :
    (calculateTreeBits twoFailuresAPI Real.log twoLeavesNet 0
        = .error .strandAssertion)
      ∧ (calculateTreeBits twoFailuresAPI Real.log twoLeavesSwappedNet 0
        = .error .lengthAssertion) := by
  constructor
  · simp [calculateTreeBits, adjacencyComponentLoop, calculateTotalContainedSequence,
      Net.ends, twoLeavesNet, endLoop, instanceLoop, instanceStep, twoFailuresAPI, tableAPI,
      gapLength, toInt32]
  · simp [calculateTreeBits, adjacencyComponentLoop, calculateTotalContainedSequence,
      Net.ends, twoLeavesSwappedNet, endLoop, instanceLoop, instanceStep, twoFailuresAPI,
      tableAPI, gapLength, toInt32]

end SiblingOrder

/-! ## The traced evaluation is the evaluation -/

section TraceErasure

variable {I : Type} {α : Type} [Zero α] [Add α] [Mul α] [Div α] [IntCast α] [OfNat α 2]

theorem traceLoop_result (api : CactusAPI I) (ln : α → α) (ancestors : List (Net I)) (q : α)
    (cs : List (Net I))
    (h : ∀ c ∈ cs, ∀ anc p, (traceTreeBits api ln anc c p).2 = calculateTreeBits api ln c p) :
    ∀ t : α, (traceLoop api ln ancestors q t cs).2 = adjacencyComponentLoop api ln q t cs := by
  induction cs with
  | nil =>
    intro t
    rw [traceLoop, adjacencyComponentLoop]
  | cons c cs ih =>
    intro t
    rw [traceLoop, adjacencyComponentLoop,
      ← h c (List.mem_cons_self c cs) ancestors q]
    cases hc : traceTreeBits api ln ancestors c q with
    | mk events result =>
      cases result with
      | error e => rfl
      | ok bits =>
        simp only []
        exact ih (fun c' hc' => h c' (List.mem_cons_of_mem c hc')) (t + bits)

/-- The traced function returns what `calculateTreeBits` returns. -/
theorem traceTreeBits_result (api : CactusAPI I) (ln : α → α) (net : Net I) :
    ∀ (ancestors : List (Net I)) (p : α),
      (traceTreeBits api ln ancestors net p).2 = calculateTreeBits api ln net p := by
  induction net using Net.induction with
  | h es cs as ih =>
    intro ancestors p
    rw [traceTreeBits, calculateTreeBits]
    split_ifs with hk
    · simp only []
      rw [← traceLoop_result api ln (ancestors ++ [.mk es cs as]) _ cs ih 0]
      cases traceLoop api ln (ancestors ++ [.mk es cs as])
          (ln (((cs.length : Int) : α)) / ln 2 + p) 0 cs with
      | mk events result =>
        cases result with
        | error e => rfl
        | ok total => rfl
    · cases (calculateTotalContainedSequence api (.mk es cs as) : Except Failure α) with
      | error e => rfl
      | ok i => rfl

end TraceErasure

/-! ## The path bit scores of an evaluation -/

section TraceEvents

variable {I : Type} {α : Type} [Zero α] [Add α] [Mul α] [Div α] [IntCast α] [OfNat α 2]

/-- Every event of the loop over the adjacency components is an event of the
evaluation of one of the nested nets. -/
theorem mem_traceLoop (api : CactusAPI I) (ln : α → α) (ancestors : List (Net I)) (q : α)
    (ev : Event I α) (cs : List (Net I)) :
    ∀ t : α, ev ∈ (traceLoop api ln ancestors q t cs).1 →
      ∃ c ∈ cs, ev ∈ (traceTreeBits api ln ancestors c q).1 := by
  induction cs with
  | nil =>
    intro t hev
    rw [traceLoop] at hev
    cases hev
  | cons c cs ih =>
    intro t hev
    rw [traceLoop] at hev
    cases hc : traceTreeBits api ln ancestors c q with
    | mk events result =>
      rw [hc] at hev
      cases result with
      | error e =>
        exact ⟨c, List.mem_cons_self c cs, by rw [hc]; exact hev⟩
      | ok bits =>
        simp only [] at hev
        rcases List.mem_append.mp hev with h1 | h2
        · exact ⟨c, List.mem_cons_self c cs, by rw [hc]; exact h1⟩
        · obtain ⟨c', hc', hmem⟩ := ih (t + bits) h2
          exact ⟨c', List.mem_cons_of_mem c hc', hmem⟩

/-- The events of the evaluation on a net: the call itself, the logarithms
of the net, and the events of the nested nets. -/
theorem mem_traceTreeBits (api : CactusAPI I) (ln : α → α) (ancestors : List (Net I))
    (es : List (End I)) (cs : List (Net I)) (as : List Atom) (p : α) (ev : Event I α)
    (hev : ev ∈ (traceTreeBits api ln ancestors (.mk es cs as) p).1) :
    ev = .call ancestors (.mk es cs as) p
      ∨ ev = .log 2
      ∨ (0 < cs.length ∧ (ev = .log (((cs.length : Int) : α))
          ∨ ev = .log (((atomLoop 0 as : Int) : α))
          ∨ ∃ c ∈ cs, ev ∈ (traceTreeBits api ln (ancestors ++ [.mk es cs as]) c
              (ln (((cs.length : Int) : α)) / ln 2 + p)).1))
      ∨ (cs = [] ∧ ∃ i, calculateTotalContainedSequence api (.mk es cs as) = .ok i
          ∧ ev = .log i) := by
  rw [traceTreeBits] at hev
  split_ifs at hev with hk
  · have hlen : 0 < cs.length := by exact_mod_cast hk
    simp only [] at hev
    have hnested : ∀ events result,
        traceLoop api ln (ancestors ++ [.mk es cs as])
          (ln (((cs.length : Int) : α)) / ln 2 + p) 0 cs = (events, result) →
        ev ∈ events →
        ∃ c ∈ cs, ev ∈ (traceTreeBits api ln (ancestors ++ [.mk es cs as]) c
          (ln (((cs.length : Int) : α)) / ln 2 + p)).1 := by
      intro events result hloop hmem
      apply mem_traceLoop api ln _ _ ev cs 0
      rw [hloop]
      exact hmem
    cases hloop : traceLoop api ln (ancestors ++ [.mk es cs as])
        (ln (((cs.length : Int) : α)) / ln 2 + p) 0 cs with
    | mk events result =>
      rw [hloop] at hev
      cases result with
      | error e =>
        simp only [List.mem_cons] at hev
        rcases hev with h | h | h | h
        · exact Or.inl h
        · exact Or.inr (Or.inr (Or.inl ⟨hlen, Or.inl h⟩))
        · exact Or.inr (Or.inl h)
        · exact Or.inr (Or.inr (Or.inl ⟨hlen, Or.inr (Or.inr (hnested _ _ hloop h))⟩))
      | ok total =>
        simp only [List.mem_cons, List.mem_append, List.mem_singleton, List.mem_nil_iff,
          or_false] at hev
        rcases hev with h | h | h | h | h | h
        · exact Or.inl h
        · exact Or.inr (Or.inr (Or.inl ⟨hlen, Or.inl h⟩))
        · exact Or.inr (Or.inl h)
        · exact Or.inr (Or.inr (Or.inl ⟨hlen, Or.inr (Or.inr (hnested _ _ hloop h))⟩))
        · exact Or.inr (Or.inr (Or.inl ⟨hlen, Or.inr (Or.inl h)⟩))
        · exact Or.inr (Or.inl h)
  · have hnil : cs = [] := by
      cases cs with
      | nil => rfl
      | cons c cs => exact absurd (by simp : ((c :: cs).length : Int) > 0) hk
    cases hi : (calculateTotalContainedSequence api (.mk es cs as) : Except Failure α) with
    | error e =>
      rw [hi] at hev
      simp only [List.mem_singleton] at hev
      exact Or.inl hev
    | ok i =>
      rw [hi] at hev
      simp only [List.mem_cons, List.mem_singleton, List.mem_nil_iff, or_false] at hev
      rcases hev with h | h | h
      · exact Or.inl h
      · exact Or.inr (Or.inr (Or.inr ⟨hnil, i, rfl, h⟩))
      · exact Or.inr (Or.inl h)

end TraceEvents

section PathBitScore

variable {I : Type} {α : Type} [Field α]

end PathBitScore

section PathBitScoreReal

variable {I : Type}

end PathBitScoreReal

/-! ## The logarithms of an evaluation -/

section Logarithms

variable {I : Type}

open Double

/-- On a net that satisfies `runtimePositive`, `calculateTreeBits` returns a
value, for every path bit score. -/
theorem calculateTreeBits_ok_of_runtimePositive (api : CactusAPI I) (net : Net I) (p : ℝ)
    (hwf : runtimePositive api net = true) :
    ∃ v, calculateTreeBits api Real.log net p = .ok v := by
  obtain ⟨-, hbound⟩ := calculateTreeBits_lower_bound api net hwf
  obtain ⟨v0, hv0, -⟩ := hbound 0 le_rfl
  refine ⟨v0 + p * (subtreeSize api net : ℝ), ?_⟩
  rw [calculateTreeBits_affine api Real.log net p, hv0]
  rfl

/-- On a net that satisfies `runtimePositive`, every logarithm of the
evaluation of `calculateTreeBits` is taken of a finite integer `>= 1`. -/
theorem log_argument_pos (api : CactusAPI I) (net : Net I) :
    runtimePositive api net = true →
    ∀ (ancestors : List (Net I)) (q x : Double ℝ),
      Event.log x ∈ (traceTreeBits api (Double.log Real.log) ancestors net q).1 →
      ∃ n : Int, 1 ≤ n ∧ x = finite (n : ℝ) := by
  induction net using Net.induction with
  | h es cs as ih =>
    intro hwf ancestors q x hev
    rcases mem_traceTreeBits api _ ancestors es cs as q _ hev with h | h | h | h
    · cases h
    · have hx : x = 2 := Event.log.inj h
      exact ⟨2, by norm_num, by rw [hx, two_eq]; norm_num⟩
    · obtain ⟨hlen, h | h | ⟨c, hc, hmem⟩⟩ := h
      · cases h
        exact ⟨(cs.length : Int), by exact_mod_cast hlen, rfl⟩
      · cases h
        have hne : cs ≠ [] := List.length_pos.mp hlen
        have hT := ((runtimePositive_internal_iff api es cs as hne).mp hwf).1
        exact ⟨atomLoop 0 as, hT, rfl⟩
      · have hne : cs ≠ [] := List.length_pos.mp hlen
        have hchild := ((runtimePositive_internal_iff api es cs as hne).mp hwf).2 c hc
        exact ih c hc hchild _ _ x hmem
    · obtain ⟨hnil, i, hi, h⟩ := h
      have hxi : x = i := Event.log.inj h
      subst hxi
      subst hnil
      obtain ⟨hchecks, hpos⟩ := (runtimePositive_leaf_iff api es as).mp hwf
      rw [calculateTotalContainedSequence_finite,
        calculateTotalContainedSequence_of_checks api (.mk es [] as) hchecks] at hi
      have hx : x = finite ((containedLength api (.mk es [] as) : Int) : ℝ) :=
        (Except.ok.inj hi).symm
      exact ⟨containedLength api (.mk es [] as), hpos, hx⟩

/-- On a tree that satisfies the documented precondition and whose segment
aggregates are representable in 32 bits, every logarithm that the evaluation
of `calculateTreeBits(root, p)` takes, at any net of the tree, is taken of a
finite integer `>= 1`, and the result is a finite number. -/
theorem logarithms_positive_and_result_finite (api : CactusAPI I) (root : Net I) (p : ℝ)
    (hpre : documentedPrecondition api root = true) (hfit : aggregatesFit root = true) :
    (traceTreeBits api (Double.log Real.log) [] root (finite p)).2
        = calculateTreeBits api (Double.log Real.log) root (finite p)
    ∧ (∀ x : Double ℝ,
        Event.log x ∈ (traceTreeBits api (Double.log Real.log) [] root (finite p)).1 →
        ∃ n : Int, 1 ≤ n ∧ x = finite (n : ℝ)
          ∧ Double.log Real.log x = finite (Real.log (n : ℝ)))
    ∧ ∃ v : ℝ, calculateTreeBits api (Double.log Real.log) root (finite p) = .ok (finite v) := by
  have hwf := runtimePositive_of_documentedPrecondition api root hpre hfit
  refine ⟨traceTreeBits_result api _ root [] _, ?_, ?_⟩
  · intro x hev
    obtain ⟨n, hn, hx⟩ := log_argument_pos api root hwf [] _ x hev
    refine ⟨n, hn, hx, ?_⟩
    rw [hx]
    apply log_finite_of_pos
    have : (1 : ℝ) ≤ (n : ℝ) := by exact_mod_cast hn
    linarith
  · obtain ⟨v, hv⟩ := calculateTreeBits_ok_of_runtimePositive api root p hwf
    refine ⟨v, ?_⟩
    rw [calculateTreeBits_finite api Real.log log_two_pos.ne' root hwf p, hv]
    rfl

/-- The net with two leaves satisfies the hypotheses of
`logarithms_positive_and_result_finite`. -/
theorem logarithms_positive_and_result_finite_witness :
    documentedPrecondition twoGapsAPI twoLeavesNet = true
    ∧ aggregatesFit twoLeavesNet = true
    ∧ ((traceTreeBits twoGapsAPI (Double.log Real.log) [] twoLeavesNet (finite 0)).2
        = calculateTreeBits twoGapsAPI (Double.log Real.log) twoLeavesNet (finite 0)
    ∧ (∀ x : Double ℝ,
        Event.log x
          ∈ (traceTreeBits twoGapsAPI (Double.log Real.log) [] twoLeavesNet (finite 0)).1 →
        ∃ n : Int, 1 ≤ n ∧ x = finite (n : ℝ)
          ∧ Double.log Real.log x = finite (Real.log (n : ℝ)))
    ∧ ∃ v : ℝ, calculateTreeBits twoGapsAPI (Double.log Real.log) twoLeavesNet (finite 0)
        = .ok (finite v)) :=
  ⟨by decide, by decide,
    logarithms_positive_and_result_finite twoGapsAPI twoLeavesNet 0 (by decide) (by decide)⟩

/-- C11 fails on the program: the tree `largeAtomsNet` satisfies the
documented precondition (the leaf has the contained length 8, the segment
aggregate of the root is `2^30 + 2^30 = 2^31 > 0`, no pairing check fails),
yet the evaluation of `calculateTreeBits(root, 0.0)` takes the logarithm of
`-2^31`, the value of the `int32_t` accumulator at line 66, and the result is
NaN. -/
theorem logarithm_of_negative_accumulator :
    documentedPrecondition gap8API largeAtomsNet = true
    ∧ exactSequenceSize largeAtomsNet.atoms = 2147483648
    ∧ Event.log (finite (-2147483648 : ℝ))
        ∈ (traceTreeBits gap8API (Double.log Real.log) [] largeAtomsNet (finite 0)).1
    ∧ Double.log Real.log (finite (-2147483648 : ℝ)) = Double.nan
    ∧ calculateTreeBits gap8API (Double.log Real.log) largeAtomsNet (finite 0)
        = .ok (Double.nan : Double ℝ) := by
  refine ⟨by decide, by decide, ?_,
    Double.log_finite_of_neg Real.log _ (by norm_num), calculateTreeBits_largeAtomsNet⟩
  simp [traceTreeBits, traceLoop, atomLoop, calculateTotalContainedSequence,
    Net.ends, largeAtomsNet, singleEndNet, endLoop, instanceLoop, instanceStep, gap8API,
    tableAPI, gapLength, toInt32]

end Logarithms

section TraceExample

/-- The events of the evaluation on the net with two leaves: the root is
called with the path bit score 0 and each leaf with `log 2 / log 2 + 0`. -/
theorem traceTreeBits_twoLeaves :
    (traceTreeBits twoGapsAPI Real.log [] twoLeavesNet 0).1
      = [.call [] twoLeavesNet 0, .log 2, .log 2,
          .call [twoLeavesNet] (.mk [⟨false, [0, 1]⟩] [] []) (Real.log 2 / Real.log 2 + 0),
          .log 4, .log 2,
          .call [twoLeavesNet] (.mk [⟨false, [2, 3]⟩] [] []) (Real.log 2 / Real.log 2 + 0),
          .log 4, .log 2, .log 10, .log 2] := by
  simp [traceTreeBits, traceLoop, atomLoop, calculateTotalContainedSequence,
    Net.ends, twoLeavesNet, endLoop, instanceLoop, instanceStep, twoGapsAPI, tableAPI,
    gapLength, toInt32]

end TraceExample

end Cactus
